import Mathlib

/-!
Shallow embedding of the MAESTRO live-call agent (backend/agents/orchestrator.py
and backend/audio/pipeline.py) and of its defensive response parser.

Python floats are modelled as rationals (all constants in the source are
decimal literals exactly representable in ℚ); Python strings as `String`
or as `List Char` where substring reasoning is needed; `asyncio.create_task`
is modelled by recording, in the step result, which background work was
spawned, while the state transition itself is the synchronous part of the
source function.  Time (`asyncio.get_event_loop().time()` and
`datetime.now()`) is passed in explicitly as a rational `now`.
-/

namespace LiveWire

/-- Python character strings, modelled as lists of characters. -/
abbrev Str := List Char

/-- Python `pat in s` substring test (for non-empty `pat`; every keyword in
the source is non-empty). -/
def occurs (pat : Str) : Str → Bool
  | [] => pat.isEmpty
  | c :: cs => pat.isPrefixOf (c :: cs) || occurs pat cs

/-- Python `w in t` on `str` values. -/
def containsSub (t w : String) : Bool := occurs w.data t.data

/-- ASCII lower-casing of one character, as Python `str.lower` acts on the
ASCII range (every keyword in the source is ASCII). -/
def lowerChar (c : Char) : Char :=
  if 65 ≤ c.toNat && c.toNat ≤ 90 then Char.ofNat (c.toNat + 32) else c

/-- Python `transcript.lower()` restricted to ASCII. -/
def pyLower (s : String) : String := ⟨s.data.map lowerChar⟩

/-- `emotion` dict as produced by the emotion model or the pipeline
fallback: every key may be absent, mirroring `dict.get` defaults. -/
structure Emotion where
  label : Option String := none
  score : Option ℚ := none
  risk_level : Option ℚ := none
deriving DecidableEq

/-- A perception event as consumed by `MaestroAgent.perceive` (the other
keys of the dict — `speech_ratio`, `context`, `emotion_trend` — are not read
by the orchestrator and are omitted). -/
structure Perception where
  transcript : String
  emotion : Emotion
deriving DecidableEq

/-- One entry of `self.call_transcript` (orchestrator.py lines 90–94). -/
structure TranscriptEntry where
  text : String
  emotion : Emotion
  timestamp : ℚ
deriving DecidableEq

/-- An action dict.  Reflex rules populate `type` (orchestrator.py lines
146–171); parsed strategic responses populate `action_type`; `_execute_action`
reads only `action_type`.  `action_id` (a uuid) and the timestamp added at
dispatch are external nondeterminism and are not modelled. -/
structure Action where
  type : Option String := none
  action_type : Option String := none
  severity : Option String := none
  priority : Option String := none
  category : Option String := none
  message : Option String := none
  suggestion : Option String := none
  headline : Option String := none
  kb_query : Option String := none
deriving DecidableEq

/-- The mutable fields of `MaestroAgent` that the decision loop reads or
writes (`call_id`/`call_start_time` only feed the summary prompt). -/
structure AgentState where
  call_transcript : List TranscriptEntry
  emotion_timeline : List Emotion
  actions_taken : List Action
  last_intervention_time : ℚ
  risk_score : ℚ
deriving DecidableEq

/-- `MaestroAgent.__init__` field values (orchestrator.py lines 53–62). -/
def initAgent : AgentState :=
  { call_transcript := [], emotion_timeline := [], actions_taken := [],
    last_intervention_time := 0, risk_score := 0 }

/-- `self._intervention_cooldown = 8.0`. -/
def intervention_cooldown : ℚ := 8

/-- `start_call` (orchestrator.py lines 67–73): resets histories and the
risk score; note it does NOT reset `_last_intervention_time`. -/
def start_call (s : AgentState) : AgentState :=
  { call_transcript := [], emotion_timeline := [], actions_taken := [],
    last_intervention_time := s.last_intervention_time, risk_score := 0 }

/-- `churn_words` (orchestrator.py lines 153–154). -/
def churn_words : List String :=
  ["cancel", "cancelling", "leaving", "switch", "competitor",
   "done with", "terrible", "worst", "never again"]

/-- `price_words` (orchestrator.py line 163). -/
def price_words : List String :=
  ["expensive", "too much", "cheaper", "discount", "price", "cost"]

/-- The critical alert dict (orchestrator.py lines 146–151). -/
def critical_alert : Action :=
  { type := some "show_risk_alert", severity := some "critical",
    message := some "Critical: Customer extremely upset. Consider escalating.",
    suggestion := some "Say: \x27I want to make sure we resolve this fully for you. Let me get a specialist involved.\x27" }

/-- The churn alert dict (orchestrator.py lines 156–161). -/
def churn_alert : Action :=
  { type := some "show_risk_alert", severity := some "high",
    message := some "Churn risk detected",
    suggestion := some "Try: \x27I completely understand. Before you go, can I see what I can do for you personally?\x27" }

/-- The price-objection prompt dict (orchestrator.py lines 165–171). -/
def price_prompt : Action :=
  { type := some "show_prompt", priority := some "medium",
    category := some "objection_handling",
    message := some "Price Objection Detected",
    suggestion := some "Focus on value not price. Ask: \x27What\x27s most important to you in solving this problem?\x27" }

/-- The churn/price keyword cascade reached when the critical-risk branch
does not return (orchestrator.py lines 153–173). -/
def instant_rules_keywords (transcript_lower : String) : Option Action :=
  if churn_words.any (fun w => containsSub transcript_lower w) then
    some churn_alert
  else if price_words.any (fun w => containsSub transcript_lower w) then
    some price_prompt
  else
    none

/-- `_instant_rules` (orchestrator.py lines 139–173).  Python operator
precedence makes line 144 `risk > 0.85 or (label == "angry" and score > 0.85)`;
when that holds but `self.risk_score > 0.75` fails, control falls through to
the keyword checks. -/
def instant_rules (risk_score : ℚ) (emotion : Emotion) (transcript : String) :
    Option Action :=
  let label := emotion.label.getD "neutral"
  let risk := emotion.risk_level.getD 0
  let transcript_lower := pyLower transcript
  if (decide (risk > 0.85) ||
      (label == "angry" && decide (emotion.score.getD 0 > 0.85))) then
    if risk_score > 0.75 then some critical_alert
    else instant_rules_keywords transcript_lower
  else instant_rules_keywords transcript_lower

/-- `trigger_words` (orchestrator.py lines 176–180). -/
def trigger_words : List String :=
  ["not happy", "disappointed", "frustrated", "wait", "waited",
   "refund", "broken", "doesn\x27t work", "problem", "issue",
   "explain", "understand", "why", "how long"]

/-- `_has_keyword_trigger` (orchestrator.py lines 175–182). -/
def has_keyword_trigger (transcript : String) : Bool :=
  trigger_words.any (fun w => containsSub (pyLower transcript) w)

/-- The kinds of integration side effects `_execute_action` can start
(orchestrator.py lines 275–293). -/
inductive SideEffect where
  | escalate
  | update_crm
  | search_linkedin
  | schedule_followup
  | draft_email
deriving DecidableEq

/-- Result of `_execute_action`: the updated state, the side effects spawned
with `asyncio.create_task` (decoupled), and the side effects awaited inline
before the function returns. -/
structure ExecResult where
  state : AgentState
  spawned : List SideEffect
  awaited : List SideEffect
deriving DecidableEq

/-- `_execute_action` (orchestrator.py lines 263–295): appends the action to
`actions_taken`, sends it to the UI (external, always performed before any
side effect), then dispatches on `action.get("action_type")`. `escalate` and
`update_crm` are spawned via `asyncio.create_task`; `search_linkedin`,
`schedule_call` and `draft_email` are awaited inline. -/
def execute_action (s : AgentState) (a : Action) : ExecResult :=
  let s' : AgentState := { s with actions_taken := s.actions_taken ++ [a] }
  match a.action_type with
  | some t =>
    if t == "escalate" then ⟨s', [SideEffect.escalate], []⟩
    else if t == "update_crm" then ⟨s', [SideEffect.update_crm], []⟩
    else if t == "search_linkedin" then ⟨s', [], [SideEffect.search_linkedin]⟩
    else if t == "schedule_call" then ⟨s', [], [SideEffect.schedule_followup]⟩
    else if t == "draft_email" then ⟨s', [], [SideEffect.draft_email]⟩
    else ⟨s', [], []⟩
  | none => ⟨s', [], []⟩

/-- Result of one pass of `perceive`/`_decide_and_act`. -/
structure StepResult where
  state : AgentState
  dispatched : List Action
  spawned : List SideEffect
  awaited : List SideEffect
  consult_launched : Bool
deriving DecidableEq

/-- `_decide_and_act` (orchestrator.py lines 115–137).  When the strategic
gate passes, the consultation is spawned with `asyncio.create_task`; the
synchronous transition does NOT touch `_last_intervention_time` (that happens
inside `_strategic_decision`, when the task later runs). -/
def decide_and_act (s : AgentState) (now : ℚ) (p : Perception) : StepResult :=
  match instant_rules s.risk_score p.emotion p.transcript with
  | some a =>
    let r := execute_action s a
    ⟨r.state, [a], r.spawned, r.awaited, false⟩
  | none =>
    let time_since_last := now - s.last_intervention_time
    let should_consult :=
      decide (time_since_last ≥ intervention_cooldown) &&
      (decide (s.risk_score > 0.4) ||
       has_keyword_trigger p.transcript ||
       decide (s.call_transcript.length % 10 == 0))
    ⟨s, [], [], [], should_consult⟩

/-- The state-mutation prefix of `perceive` (orchestrator.py lines 90–101):
append to the transcript and emotion histories, evict the oldest transcript
entry when the buffer exceeds 50, then fold the new risk into the EWMA. -/
def perceive_state_update (s : AgentState) (now : ℚ) (p : Perception) :
    AgentState :=
  let s1 : AgentState :=
    { s with
      call_transcript := s.call_transcript ++ [⟨p.transcript, p.emotion, now⟩],
      emotion_timeline := s.emotion_timeline ++ [p.emotion] }
  let s2 : AgentState :=
    if s1.call_transcript.length > 50 then
      { s1 with call_transcript := s1.call_transcript.drop 1 }
    else s1
  let new_risk := p.emotion.risk_level.getD 0
  { s2 with risk_score := s2.risk_score * 0.7 + new_risk * 0.3 }

/-- `perceive` (orchestrator.py lines 83–113): an empty transcript is
rejected before any mutation; otherwise the state is updated and
`_decide_and_act` runs on the updated state. -/
def perceive (s : AgentState) (now : ℚ) (p : Perception) : StepResult :=
  if p.transcript == "" then ⟨s, [], [], [], false⟩
  else decide_and_act (perceive_state_update s now p) now p

/-- The first statement of `_strategic_decision` (orchestrator.py line 186):
when the spawned consultation task actually starts running, it records the
event-loop time as `_last_intervention_time`. -/
def strategic_decision_start (s : AgentState) (now : ℚ) : AgentState :=
  { s with last_intervention_time := now }

/-- Result of `end_call`: the (unchanged) agent state, and whether the
`log_to_crm` and `store_call` background tasks were spawned. -/
structure EndCallResult where
  state : AgentState
  crm_logged : Bool
  stored : Bool
deriving DecidableEq

/-- `end_call` (orchestrator.py lines 306–349): computes a summary (external
reasoning call, not modelled) and, when the transcript holds more than 3
entries, spawns CRM-logging and persistence tasks.  It resets none of the
agent state and sets no terminal flag. -/
def end_call (s : AgentState) : EndCallResult :=
  ⟨s, decide (s.call_transcript.length > 3), decide (s.call_transcript.length > 3)⟩

/-- Fold a timed perception sequence through `perceive`. -/
def run_perceptions (s : AgentState) (ps : List (ℚ × Perception)) : AgentState :=
  ps.foldl (fun st tp => (perceive st tp.1 tp.2).state) s

/-- Python whitespace for `str.strip()` (space, newline, tab, carriage
return, vertical tab, form feed). -/
def isPyWs (c : Char) : Bool :=
  c == ' ' || c == '\n' || c == '\t' || c == '\r' ||
  c == Char.ofNat 11 || c == Char.ofNat 12

/-- Python `str.strip()` on a character list. -/
def stripL (s : Str) : Str :=
  ((s.dropWhile isPyWs).reverse.dropWhile isPyWs).reverse

/-- The right-strip half of Python `str.strip()`. -/
def stripRight (s : Str) : Str := (s.reverse.dropWhile isPyWs).reverse

/-- Python `str.strip()` on `str` values. -/
def stripString (s : String) : String := ⟨stripL s.data⟩

/-- The fallback emotion substituted by the audio pipeline when emotion
detection fails (pipeline.py line 64).  It has no `risk_level` key. -/
def neutral_fallback_emotion : Emotion :=
  { label := some "neutral", score := some 0.5, risk_level := none }

/-- `AudioPipeline.on_audio_chunk` (pipeline.py lines 37–80), up to the
Perception it forwards to the agent: the `_running` gate, the speech-ratio
gate (`< 0.2` drops the window), the fan-out merge in which a failed
transcription yields `None` and a failed emotion classification yields the
neutral fallback, and the `if transcript and transcript.strip():` guard.
Returns the Perception passed to `agent.perceive`, or `none` when the chunk
is dropped. -/
def on_audio_chunk (running : Bool) (speech_ratio : ℚ)
    (transcript : Except Unit String) (emotion : Except Unit Emotion) :
    Option Perception :=
  if !running then none
  else if speech_ratio < 0.2 then none
  else
    let t : Option String :=
      match transcript with
      | Except.error _ => none
      | Except.ok t => some t
    let e : Emotion :=
      match emotion with
      | Except.error _ => neutral_fallback_emotion
      | Except.ok e => e
    match t with
    | none => none
    | some t =>
      if t == "" then none
      else if stripString t == "" then none
      else some { transcript := t, emotion := e }

/-- The pipeline's bounded context buffers (pipeline.py lines 66–72): append
the transcript and emotion, then evict the oldest entries when the
transcript context exceeds 15. -/
def pipeline_context_update (ctx : List String × List Emotion)
    (t : String) (e : Emotion) : List String × List Emotion :=
  let c := ctx.1 ++ [t]
  let h := ctx.2 ++ [e]
  if c.length > 15 then (c.drop 1, h.drop 1) else (c, h)

/-- Written from the spec, for comparison with the code: one step of the
EWMA recurrence `s_k = 0.7·s_(k-1) + 0.3·r_k`. -/
def ewma_step (s r : ℚ) : ℚ := 0.7 * s + 0.3 * r

/-- Written from the spec, for comparison with the code: the EWMA recurrence
applied in input order starting from 0. -/
def ewma_spec (rs : List ℚ) : ℚ := rs.foldl ewma_step 0

/-- The emotion-risk value `perceive` reads from a Perception
(`emotion.get("risk_level", 0)`). -/
def risk_of (p : Perception) : ℚ := p.emotion.risk_level.getD 0

/-- The left-brace character, written by code point to keep it out of
string literals. -/
def lbraceC : Char := Char.ofNat 123

/-- The right-brace character. -/
def rbraceC : Char := Char.ofNat 125

/-- The backtick character. -/
def btickC : Char := Char.ofNat 96

/-- The double-quote character. -/
def quoteC : Char := Char.ofNat 34

/-- The backslash character. -/
def backslashC : Char := Char.ofNat 92

/-- The left-bracket character. -/
def lbrackC : Char := Char.ofNat 91

/-- The right-bracket character. -/
def rbrackC : Char := Char.ofNat 93

/-- Index of the first occurrence of a character (Python `str.find`,
with `none` for -1). -/
def firstIdx (c : Char) : Str → Option Nat
  | [] => none
  | x :: xs => if x = c then some 0 else (firstIdx c xs).map (· + 1)

/-- Index of the last occurrence of a character (Python `str.rfind`,
with `none` for -1). -/
def lastIdx (c : Char) (s : Str) : Option Nat :=
  (firstIdx c s.reverse).map (fun i => s.length - 1 - i)

/-- Python slice `s[i : j+1]`. -/
def sliceIncl (s : Str) (i j : Nat) : Str := (s.drop i).take (j + 1 - i)

/-- The fence marker three-backtick string. -/
def fence3 : Str := [btickC, btickC, btickC]

/-- The effect of `re.search(r"(\x7b.*\x7d)", text, re.DOTALL)` followed by
`text = match.group(1)` when a match exists (orchestrator.py lines 241–244):
with a greedy `.*` under DOTALL the match, when one exists, runs from the
first left brace to the last right brace of the whole text; there is no
match exactly when no right brace follows the first left brace, and then the
text is left unchanged. -/
def brace_span_greedy (s : Str) : Str :=
  match firstIdx lbraceC s, lastIdx rbraceC s with
  | some i, some j => if i < j then sliceIncl s i j else s
  | _, _ => s

/-- The `text.find` / `text.rfind` brace-span slice applied when the text
does not start with a left brace (orchestrator.py lines 246–250); the
source performs the slice whenever both indices are found, without
comparing them. -/
def brace_slice (s : Str) : Str :=
  match firstIdx lbraceC s, lastIdx rbraceC s with
  | some i, some j => sliceIncl s i j
  | _, _ => s

/-- Fuel-driven core of Python `str.replace`: scan left to right, replace
each non-overlapping occurrence, resume after the replacement.  The
pattern is passed as head plus rest so it is never empty. -/
def replaceAllF (p0 : Char) (prest rep : Str) : Nat → Str → Str
  | 0, s => s
  | _ + 1, [] => []
  | fuel + 1, c :: cs =>
    if (p0 :: prest).isPrefixOf (c :: cs) then
      rep ++ replaceAllF p0 prest rep fuel (cs.drop prest.length)
    else c :: replaceAllF p0 prest rep fuel cs

/-- Python `s.replace(pattern, rep)` for a non-empty pattern
`p0 :: prest`. -/
def replaceAll (p0 : Char) (prest rep : Str) (s : Str) : Str :=
  replaceAllF p0 prest rep s.length s

/-- The trailing-comma normalization (orchestrator.py line 253):
`text.replace(",\n\x7d", "\n\x7d").replace(",\x7d", "\x7d")`. -/
def normalize_commas (s : Str) : Str :=
  replaceAll ',' [rbraceC] [rbraceC]
    (replaceAll ',' ['\n', rbraceC] ['\n', rbraceC] s)

/-- JSON values, as far as the strategic-response contract uses them.
`json.loads` is the Python standard library; it is modelled here for the
fragment the contract exercises: objects, arrays, escape-free strings,
integer numerals, booleans and null. -/
inductive Json where
  | null : Json
  | bool (b : Bool) : Json
  | num (n : Int) : Json
  | str (s : Str) : Json
  | arr (a : List Json) : Json
  | obj (o : List (Str × Json)) : Json

/-- JSON whitespace. -/
def isJsonWs (c : Char) : Bool :=
  c == ' ' || c == '\t' || c == '\n' || c == '\r'

/-- Parse the body of a string literal after its opening quote, up to the
closing quote; escape sequences are outside the modelled fragment. -/
def parseStrLit : Str → Option (Str × Str)
  | [] => none
  | c :: cs =>
    if c = quoteC then some ([], cs)
    else if c = backslashC then none
    else
      match parseStrLit cs with
      | some pr => some (c :: pr.1, pr.2)
      | none => none

/-- Leading decimal digits of a string, as digit values, with the rest. -/
def digitsPrefix : Str → List Nat × Str
  | [] => ([], [])
  | c :: cs =>
    if c.isDigit then
      let r := digitsPrefix cs
      ((c.toNat - 48) :: r.1, r.2)
    else ([], c :: cs)

/-- A decimal digit list read as a natural number. -/
def natOfDigits (ds : List Nat) : Nat := ds.foldl (fun a d => a * 10 + d) 0

/-- Recursion mode of the JSON parser: a single value, the members of an
object after its opening brace, or the elements of an array. -/
inductive PMode where
  | val : PMode
  | members : PMode
  | elems : PMode

/-- Result of one parser step, tagged by mode. -/
inductive PRes where
  | v (j : Json) : PRes
  | ms (l : List (Str × Json)) : PRes
  | es (l : List Json) : PRes

/-- Fuel-driven recursive-descent JSON parser for the modelled fragment.
Every recursive call consumes at least one character first, so fuel equal
to the input length suffices.  Mode `members` parses `"key": value` pairs
separated by commas up to the closing brace; mode `elems` parses values
separated by commas up to the closing bracket. -/
def parseStep : Nat → PMode → Str → Option (PRes × Str)
  | 0, _, _ => none
  | fuel + 1, PMode.val, s =>
    match s.dropWhile isJsonWs with
    | [] => none
    | c :: cs =>
      if c = quoteC then
        match parseStrLit cs with
        | some pr => some (PRes.v (Json.str pr.1), pr.2)
        | none => none
      else if c = 'n' then
        if ['u', 'l', 'l'].isPrefixOf cs then some (PRes.v Json.null, cs.drop 3)
        else none
      else if c = 't' then
        if ['r', 'u', 'e'].isPrefixOf cs then
          some (PRes.v (Json.bool true), cs.drop 3)
        else none
      else if c = 'f' then
        if ['a', 'l', 's', 'e'].isPrefixOf cs then
          some (PRes.v (Json.bool false), cs.drop 4)
        else none
      else if c = '-' then
        let r := digitsPrefix cs
        if r.1.isEmpty then none
        else some (PRes.v (Json.num (-(natOfDigits r.1 : Int))), r.2)
      else if c.isDigit then
        let r := digitsPrefix (c :: cs)
        some (PRes.v (Json.num (natOfDigits r.1 : Int)), r.2)
      else if c = lbraceC then
        match cs.dropWhile isJsonWs with
        | [] => none
        | d :: ds =>
          if d = rbraceC then some (PRes.v (Json.obj []), ds)
          else
            match parseStep fuel PMode.members (d :: ds) with
            | some (PRes.ms l, rest) => some (PRes.v (Json.obj l), rest)
            | _ => none
      else if c = lbrackC then
        match cs.dropWhile isJsonWs with
        | [] => none
        | d :: ds =>
          if d = rbrackC then some (PRes.v (Json.arr []), ds)
          else
            match parseStep fuel PMode.elems (d :: ds) with
            | some (PRes.es l, rest) => some (PRes.v (Json.arr l), rest)
            | _ => none
      else none
  | fuel + 1, PMode.members, s =>
    match s.dropWhile isJsonWs with
    | [] => none
    | c :: cs =>
      if c = quoteC then
        match parseStrLit cs with
        | some kr =>
          match kr.2.dropWhile isJsonWs with
          | [] => none
          | c2 :: cs2 =>
            if c2 = ':' then
              match parseStep fuel PMode.val cs2 with
              | some (PRes.v v, rest) =>
                match rest.dropWhile isJsonWs with
                | [] => none
                | c3 :: cs3 =>
                  if c3 = ',' then
                    match parseStep fuel PMode.members cs3 with
                    | some (PRes.ms l, rest2) =>
                      some (PRes.ms ((kr.1, v) :: l), rest2)
                    | _ => none
                  else if c3 = rbraceC then some (PRes.ms [(kr.1, v)], cs3)
                  else none
              | _ => none
            else none
        | none => none
      else none
  | fuel + 1, PMode.elems, s =>
    match parseStep fuel PMode.val s with
    | some (PRes.v v, rest) =>
      match rest.dropWhile isJsonWs with
      | [] => none
      | c :: cs =>
        if c = ',' then
          match parseStep fuel PMode.elems cs with
          | some (PRes.es l, rest2) => some (PRes.es (v :: l), rest2)
          | _ => none
        else if c = rbrackC then some (PRes.es [v], cs)
        else none
    | _ => none

/-- Python `json.loads` on the modelled fragment: parse one value and
require only whitespace to remain. -/
def jsonLoads (s : Str) : Option Json :=
  match parseStep (s.length + 1) PMode.val s with
  | some (PRes.v v, rest) =>
    if (rest.dropWhile isJsonWs).isEmpty then some v else none
  | _ => none

/-- The normalization pipeline of `_parse_gemini_response` before
`json.loads` (orchestrator.py lines 239–253): strip, fenced-text greedy
brace extraction, brace-span slice when the text does not start with a left
brace, strip again, trailing-comma normalization. -/
def gemini_text (response_text : Str) : Str :=
  let t1 := stripL response_text
  let t2 := if occurs fence3 t1 then brace_span_greedy t1 else t1
  let t3 := if t2.head? = some lbraceC then t2 else brace_slice t2
  let t4 := stripL t3
  normalize_commas t4

/-- `_parse_gemini_response` (orchestrator.py lines 237–261): normalize the
text, then `json.loads`; every failure (including a `JSONDecodeError`) is
caught and returned as no action. -/
def parse_gemini_response (response_text : Str) : Option Json :=
  jsonLoads (gemini_text response_text)

/-- A low-risk perception whose transcript matches no reflex keyword and no
secondary trigger keyword. -/
def pHi : Perception :=
  { transcript := "hi",
    emotion := { label := some "neutral", score := some 0, risk_level := some 0 } }

/-- A low-risk perception whose transcript contains the secondary trigger
keyword `problem` but no reflex keyword. -/
def pTrig : Perception :=
  { transcript := "problem",
    emotion := { label := some "neutral", score := some 0, risk_level := some 0 } }

/-- A perception whose transcript contains the churn keyword `cancel`. -/
def pCancel : Perception :=
  { transcript := "I want to cancel",
    emotion := { label := some "neutral", score := some 0, risk_level := some 0 } }

/-- A parsed strategic action requesting LinkedIn enrichment. -/
def linkedin_action : Action := { action_type := some "search_linkedin" }

/-- A neutral perception with full risk. -/
def pR1 : Perception :=
  { transcript := "ok",
    emotion := { label := some "neutral", score := some 0, risk_level := some 1 } }

/-- A neutral perception with risk one half. -/
def pRh : Perception :=
  { transcript := "ok",
    emotion := { label := some "neutral", score := some 0, risk_level := some 0.5 } }

/-- The bare JSON object text used as the parser test object. -/
def j_bare : Str := lbraceC :: ("\"a\": 1").data ++ [rbraceC]

/-- The test object followed by trailing prose only. -/
def j_trailing_prose : Str := j_bare ++ (" Thanks!").data

/-- The structured value the test object denotes. -/
def j_value : Json := Json.obj [(['a'], Json.num 1)]

/-- The code-fence prefix written by the reasoning service. -/
def fence_pre : Str := fence3 ++ ("json\n").data

/-- The code-fence suffix. -/
def fence_post : Str := '\n' :: fence3

/-- The transcript entry `perceive` appends for a perception at a given
time. -/
def entry_of (p : Perception) (now : ℚ) : TranscriptEntry :=
  { text := p.transcript, emotion := p.emotion, timestamp := now }

/-- Dispatching an action only appends it to the action log; no other state
field changes. -/
lemma execute_action_state (s : AgentState) (a : Action) :
    (execute_action s a).state = { s with actions_taken := s.actions_taken ++ [a] } := by
  unfold execute_action
  cases a.action_type with
  | none => rfl
  | some t => dsimp only; split_ifs <;> rfl

/-- The decision step leaves the histories, the risk score and the
consultation timestamp unchanged. -/
lemma decide_and_act_fields (s : AgentState) (now : ℚ) (p : Perception) :
    (decide_and_act s now p).state.call_transcript = s.call_transcript ∧
    (decide_and_act s now p).state.emotion_timeline = s.emotion_timeline ∧
    (decide_and_act s now p).state.risk_score = s.risk_score ∧
    (decide_and_act s now p).state.last_intervention_time = s.last_intervention_time := by
  unfold decide_and_act
  cases instant_rules s.risk_score p.emotion p.transcript with
  | none => exact ⟨rfl, rfl, rfl, rfl⟩
  | some a => simp [execute_action_state]

/-- The state-update prefix folds the new risk into the EWMA. -/
lemma perceive_state_update_risk (s : AgentState) (now : ℚ) (p : Perception) :
    (perceive_state_update s now p).risk_score = s.risk_score * 0.7 + risk_of p * 0.3 := by
  unfold perceive_state_update risk_of
  dsimp only
  split <;> rfl

/-- The state-update prefix appends a transcript entry and evicts the head
exactly when the appended buffer exceeds 50. -/
lemma perceive_state_update_transcript (s : AgentState) (now : ℚ) (p : Perception) :
    (perceive_state_update s now p).call_transcript =
      if s.call_transcript.length + 1 > 50 then
        (s.call_transcript ++ [entry_of p now]).drop 1
      else s.call_transcript ++ [entry_of p now] := by
  unfold perceive_state_update
  by_cases h : s.call_transcript.length + 1 > 50 <;>
    simp [entry_of, h]

/-- The state-update prefix appends one emotion to the timeline. -/
lemma perceive_state_update_timeline (s : AgentState) (now : ℚ) (p : Perception) :
    (perceive_state_update s now p).emotion_timeline =
      s.emotion_timeline ++ [p.emotion] := by
  unfold perceive_state_update
  by_cases h : s.call_transcript.length + 1 > 50 <;> simp [h]

/-- The state-update prefix never touches the consultation timestamp. -/
lemma perceive_state_update_lit (s : AgentState) (now : ℚ) (p : Perception) :
    (perceive_state_update s now p).last_intervention_time =
      s.last_intervention_time := by
  unfold perceive_state_update
  by_cases h : s.call_transcript.length + 1 > 50 <;> simp [h]

/-- A perception with a non-empty transcript runs the state update and then
the decision step. -/
lemma perceive_of_ne (s : AgentState) (now : ℚ) (p : Perception)
    (h : p.transcript ≠ "") :
    perceive s now p = decide_and_act (perceive_state_update s now p) now p := by
  unfold perceive
  simp [h]

/-- A perception with an empty transcript is rejected unchanged. -/
lemma perceive_of_empty (s : AgentState) (now : ℚ) (p : Perception)
    (h : p.transcript = "") :
    perceive s now p = ⟨s, [], [], [], false⟩ := by
  unfold perceive
  simp [h]

/-- Risk evolution of a full perceive pass. -/
lemma perceive_risk (s : AgentState) (now : ℚ) (p : Perception)
    (h : p.transcript ≠ "") :
    (perceive s now p).state.risk_score = s.risk_score * 0.7 + risk_of p * 0.3 := by
  rw [perceive_of_ne s now p h]
  rw [(decide_and_act_fields _ now p).2.2.1, perceive_state_update_risk]

/-- Transcript evolution of a full perceive pass. -/
lemma perceive_transcript (s : AgentState) (now : ℚ) (p : Perception)
    (h : p.transcript ≠ "") :
    (perceive s now p).state.call_transcript =
      if s.call_transcript.length + 1 > 50 then
        (s.call_transcript ++ [entry_of p now]).drop 1
      else s.call_transcript ++ [entry_of p now] := by
  rw [perceive_of_ne s now p h]
  rw [(decide_and_act_fields _ now p).1, perceive_state_update_transcript]

/-- Timeline evolution of a full perceive pass. -/
lemma perceive_timeline (s : AgentState) (now : ℚ) (p : Perception)
    (h : p.transcript ≠ "") :
    (perceive s now p).state.emotion_timeline = s.emotion_timeline ++ [p.emotion] := by
  rw [perceive_of_ne s now p h]
  rw [(decide_and_act_fields _ now p).2.1, perceive_state_update_timeline]

/-- The consultation timestamp is never touched by a perceive pass. -/
lemma perceive_lit (s : AgentState) (now : ℚ) (p : Perception) :
    (perceive s now p).state.last_intervention_time = s.last_intervention_time := by
  by_cases h : p.transcript = ""
  · rw [perceive_of_empty s now p h]
  · rw [perceive_of_ne s now p h]
    rw [(decide_and_act_fields _ now p).2.2.2, perceive_state_update_lit]

/-- Length of the transcript buffer after one state update. -/
lemma perceive_state_update_length (s : AgentState) (now : ℚ) (p : Perception) :
    (perceive_state_update s now p).call_transcript.length =
      if s.call_transcript.length + 1 > 50 then s.call_transcript.length
      else s.call_transcript.length + 1 := by
  rw [perceive_state_update_transcript]
  by_cases h : s.call_transcript.length + 1 > 50 <;> simp [h]

/-- Unfolding a run over a one-element extension. -/
lemma run_perceptions_append_one (s : AgentState) (ps : List (ℚ × Perception))
    (tp : ℚ × Perception) :
    run_perceptions s (ps ++ [tp]) = (perceive (run_perceptions s ps) tp.1 tp.2).state := by
  unfold run_perceptions
  rw [List.foldl_append]
  rfl

/-- Unfolding a run at its first perception. -/
lemma run_perceptions_cons (s : AgentState) (tp : ℚ × Perception)
    (ps : List (ℚ × Perception)) :
    run_perceptions s (tp :: ps) = run_perceptions (perceive s tp.1 tp.2).state ps := rfl

/-- The risk score after a run of accepted perceptions is the left fold of
the source's update over the risk inputs. -/
lemma run_perceptions_risk (ps : List (ℚ × Perception)) :
    ∀ s : AgentState, (∀ tp ∈ ps, tp.2.transcript ≠ "") →
      (run_perceptions s ps).risk_score =
        (ps.map (fun tp => risk_of tp.2)).foldl
          (fun acc r => acc * 0.7 + r * 0.3) s.risk_score := by
  induction ps with
  | nil => intro s _; rfl
  | cons tp ps ih =>
    intro s h
    rw [run_perceptions_cons, ih _ (fun x hx => h x (List.mem_cons_of_mem _ hx))]
    rw [List.map_cons, List.foldl_cons, perceive_risk _ _ _ (h tp (List.mem_cons_self _ _))]

/-- One perceive pass keeps the transcript buffer within 50 entries. -/
lemma perceive_length_le (s : AgentState) (now : ℚ) (p : Perception)
    (h : s.call_transcript.length ≤ 50) :
    (perceive s now p).state.call_transcript.length ≤ 50 := by
  by_cases he : p.transcript = ""
  · rw [perceive_of_empty s now p he]
    exact h
  · rw [perceive_of_ne s now p he,
      (decide_and_act_fields _ now p).1, perceive_state_update_length]
    by_cases h50 : s.call_transcript.length + 1 > 50 <;> simp [h50] <;> omega

/-- A run keeps the transcript buffer within 50 entries. -/
lemma run_perceptions_length_le (ps : List (ℚ × Perception)) :
    ∀ s : AgentState, s.call_transcript.length ≤ 50 →
      (run_perceptions s ps).call_transcript.length ≤ 50 := by
  induction ps with
  | nil => intro s h; exact h
  | cons tp ps ih =>
    intro s h
    rw [run_perceptions_cons]
    exact ih _ (perceive_length_le s tp.1 tp.2 h)

/-- The emotion timeline grows by one per accepted perception, without
bound. -/
lemma run_perceptions_timeline (ps : List (ℚ × Perception)) :
    ∀ s : AgentState, (∀ tp ∈ ps, tp.2.transcript ≠ "") →
      (run_perceptions s ps).emotion_timeline.length =
        s.emotion_timeline.length + ps.length := by
  induction ps with
  | nil => intro s _; rfl
  | cons tp ps ih =>
    intro s h
    rw [run_perceptions_cons, ih _ (fun x hx => h x (List.mem_cons_of_mem _ hx))]
    rw [perceive_timeline _ _ _ (h tp (List.mem_cons_self _ _))]
    simp
    omega

/-- A run never touches the consultation timestamp. -/
lemma run_perceptions_lit (ps : List (ℚ × Perception)) :
    ∀ s : AgentState,
      (run_perceptions s ps).last_intervention_time = s.last_intervention_time := by
  induction ps with
  | nil => intro s; rfl
  | cons tp ps ih =>
    intro s
    rw [run_perceptions_cons, ih, perceive_lit]

/-- No reflex fires on the `pHi` perception, whatever the running risk
score. -/
lemma instant_rules_pHi (r : ℚ) : instant_rules r pHi.emotion "hi" = none := by
  unfold instant_rules
  norm_num [pHi]
  decide

/-- The consultation gate as the code computes it, for a perception on
which no reflex fires. -/
lemma consult_launched_eq (s : AgentState) (now : ℚ) (p : Perception)
    (hne : p.transcript ≠ "")
    (hrefl : instant_rules (perceive_state_update s now p).risk_score
      p.emotion p.transcript = none) :
    (perceive s now p).consult_launched =
      (decide (now - s.last_intervention_time ≥ intervention_cooldown) &&
       (decide ((perceive_state_update s now p).risk_score > 0.4) ||
        has_keyword_trigger p.transcript ||
        decide (((perceive_state_update s now p).call_transcript.length % 10 == 0) = true))) := by
  rw [perceive_of_ne s now p hne]
  unfold decide_and_act
  rw [hrefl, perceive_state_update_lit]

/-- State after a run of `pHi` perceptions: zero risk, untouched
consultation timestamp, transcript buffer capped at 50, timeline length
equal to the number of accepted perceptions. -/
lemma run_pHi (k : Nat) :
    (run_perceptions initAgent (List.replicate k ((100 : ℚ), pHi))).risk_score = 0 ∧
    (run_perceptions initAgent (List.replicate k ((100 : ℚ), pHi))).last_intervention_time = 0 ∧
    (run_perceptions initAgent (List.replicate k ((100 : ℚ), pHi))).call_transcript.length = min k 50 ∧
    (run_perceptions initAgent (List.replicate k ((100 : ℚ), pHi))).emotion_timeline.length = k := by
  induction k with
  | zero => exact ⟨rfl, rfl, rfl, rfl⟩
  | succ k ih =>
    obtain ⟨hr, hl, hc, ht⟩ := ih
    rw [List.replicate_succ', run_perceptions_append_one]
    have hne : pHi.transcript ≠ "" := by decide
    refine ⟨?_, ?_, ?_, ?_⟩
    · rw [perceive_risk _ _ _ hne, hr]
      norm_num [risk_of, pHi]
    · rw [perceive_lit]
      exact hl
    · rw [perceive_transcript _ _ _ hne]
      by_cases h50 : (run_perceptions initAgent (List.replicate k ((100 : ℚ), pHi))).call_transcript.length + 1 > 50 <;>
        simp [h50] <;> omega
    · rw [perceive_timeline _ _ _ hne]
      simp
      omega

/-- No reflex fires on the `pTrig` perception, whatever the running risk
score. -/
lemma instant_rules_pTrig (r : ℚ) : instant_rules r pTrig.emotion "problem" = none := by
  unfold instant_rules
  norm_num [pTrig]
  decide

/-- The churn reflex fires on the `pCancel` perception, whatever the
running risk score. -/
lemma instant_rules_pCancel (r : ℚ) :
    instant_rules r pCancel.emotion pCancel.transcript = some churn_alert := by
  unfold instant_rules
  norm_num [pCancel]
  decide

/-- Any state whose consultation timestamp is still 0 launches a
consultation on `pTrig` at a time at least the cooldown. -/
lemma pTrig_launches (s : AgentState) (now : ℚ)
    (hlit : s.last_intervention_time = 0)
    (h8 : now - 0 ≥ intervention_cooldown) :
    (perceive s now pTrig).consult_launched = true := by
  rw [consult_launched_eq s now pTrig (by decide) (instant_rules_pTrig _), hlit]
  have hk : has_keyword_trigger pTrig.transcript = true := by decide
  simp [decide_eq_true h8, hk]
  linarith

/-- C1, counterexample: two qualifying Perceptions 3 seconds apart each
launch a strategic consultation, and the first launch leaves
`_last_intervention_time` untouched — the timestamp is not recorded before
the task is launched (it is recorded inside the task, which has not run
here). -/
theorem consult_cooldown_counterexample :
    (perceive initAgent 100 pTrig).consult_launched = true ∧
    (perceive initAgent 100 pTrig).state.last_intervention_time = 0 ∧
    ((103 : ℚ) - 100 < 8) ∧
    (perceive (perceive initAgent 100 pTrig).state 103 pTrig).consult_launched = true := by
  have hlit : (perceive initAgent 100 pTrig).state.last_intervention_time = 0 := by
    rw [perceive_lit]
    rfl
  refine ⟨?_, hlit, by norm_num, ?_⟩
  · exact pTrig_launches initAgent 100 rfl (by unfold intervention_cooldown; norm_num)
  · exact pTrig_launches _ 103 hlit (by unfold intervention_cooldown; norm_num)

/-- C1, amended: `_last_intervention_time` is recorded when the spawned
consultation task starts running, not before it is launched; once a
consultation task has started at time `t1`, no Perception processed less
than 8 seconds later launches another consultation. -/
theorem consult_cooldown_after_start (s : AgentState) (t1 t2 : ℚ) (p : Perception)
    (h : t2 - t1 < 8) :
    (perceive (strategic_decision_start s t1) t2 p).consult_launched = false := by
  by_cases hne : p.transcript = ""
  · rw [perceive_of_empty _ _ _ hne]
  · rw [perceive_of_ne _ _ _ hne]
    unfold decide_and_act
    cases hI : instant_rules
        (perceive_state_update (strategic_decision_start s t1) t2 p).risk_score
        p.emotion p.transcript with
    | some a => rfl
    | none =>
      dsimp only
      rw [perceive_state_update_lit]
      have hlt : ¬ (t2 - (strategic_decision_start s t1).last_intervention_time ≥
          intervention_cooldown) := by
        unfold strategic_decision_start intervention_cooldown
        dsimp only
        linarith
      simp [hlt]

/-- C1, witness for the amended statement at a concrete input. -/
theorem consult_cooldown_after_start_witness :
    ((103 : ℚ) - 100 < 8) ∧
    (perceive (strategic_decision_start initAgent 100) 103 pTrig).consult_launched = false :=
  ⟨by norm_num, consult_cooldown_after_start initAgent 100 103 pTrig (by norm_num)⟩

/-- C2, counterexample: a LinkedIn-enrichment action's side effect is
awaited inline by the dispatcher, not spawned as a decoupled task. -/
theorem side_effect_inline_counterexample :
    (execute_action initAgent linkedin_action).spawned = [] ∧
    (execute_action initAgent linkedin_action).awaited = [SideEffect.search_linkedin] :=
  ⟨rfl, rfl⟩

/-- C2, amended: the UI append always happens; escalation and CRM logging
are spawned as decoupled tasks, while LinkedIn enrichment, follow-up
scheduling and email drafting are awaited inline before the dispatcher
returns. -/
theorem side_effect_dispatch_classes (s : AgentState) (a : Action) :
    (execute_action s a).spawned =
      (if a.action_type = some "escalate" then [SideEffect.escalate]
       else if a.action_type = some "update_crm" then [SideEffect.update_crm]
       else []) ∧
    (execute_action s a).awaited =
      (if a.action_type = some "search_linkedin" then [SideEffect.search_linkedin]
       else if a.action_type = some "schedule_call" then [SideEffect.schedule_followup]
       else if a.action_type = some "draft_email" then [SideEffect.draft_email]
       else []) ∧
    (execute_action s a).state = { s with actions_taken := s.actions_taken ++ [a] } := by
  refine ⟨?_, ?_, execute_action_state s a⟩ <;>
  · unfold execute_action
    cases a.action_type with
    | none => simp
    | some t => dsimp only; split_ifs <;> simp_all

/-- C3: whenever a reflex rule fires on a Perception, its action is the one
dispatched and no strategic consultation is launched for that Perception,
regardless of cooldown state, risk score or trigger keywords. -/
theorem reflex_preempts_consult (s : AgentState) (now : ℚ) (p : Perception) (a : Action)
    (hne : p.transcript ≠ "")
    (h : instant_rules (perceive_state_update s now p).risk_score
      p.emotion p.transcript = some a) :
    (perceive s now p).dispatched = [a] ∧
    (perceive s now p).consult_launched = false := by
  rw [perceive_of_ne s now p hne]
  unfold decide_and_act
  rw [h]
  exact ⟨rfl, rfl⟩

/-- C3, witness: a churn-keyword Perception dispatches the churn alert and
launches no consultation. -/
theorem reflex_preempts_consult_witness :
    pCancel.transcript ≠ "" ∧
    (perceive initAgent 0 pCancel).dispatched = [churn_alert] ∧
    (perceive initAgent 0 pCancel).consult_launched = false := by
  have hne : pCancel.transcript ≠ "" := by decide
  exact ⟨hne, reflex_preempts_consult initAgent 0 pCancel churn_alert hne
    (instant_rules_pCancel _)⟩

/-- The code's risk update step and the spec's EWMA step agree as fold
functions. -/
lemma ewma_fold_eq (rs : List ℚ) :
    ∀ init : ℚ,
      rs.foldl (fun acc r => acc * 0.7 + r * 0.3) init = rs.foldl ewma_step init := by
  induction rs with
  | nil => intro init; rfl
  | cons r rs ih =>
    intro init
    rw [List.foldl_cons, List.foldl_cons, ih]
    congr 1
    unfold ewma_step
    ring

/-- The risk fold stays in the unit interval when all inputs do. -/
lemma ewma_fold_bounds (rs : List ℚ) :
    ∀ init : ℚ, 0 ≤ init → init ≤ 1 → (∀ r ∈ rs, 0 ≤ r ∧ r ≤ 1) →
      0 ≤ rs.foldl (fun acc r => acc * 0.7 + r * 0.3) init ∧
      rs.foldl (fun acc r => acc * 0.7 + r * 0.3) init ≤ 1 := by
  induction rs with
  | nil => intro init h0 h1 _; exact ⟨h0, h1⟩
  | cons r rs ih =>
    intro init h0 h1 hb
    rw [List.foldl_cons]
    obtain ⟨hr0, hr1⟩ := hb r (List.mem_cons_self _ _)
    exact ih _ (by nlinarith) (by nlinarith)
      (fun x hx => hb x (List.mem_cons_of_mem _ hx))

/-- C4: from a fresh call, the risk score after a sequence of accepted
Perceptions equals the spec's EWMA recurrence applied to their risk inputs
in order, and stays in the unit interval; quantifying over all sequences
covers every intermediate state. -/
theorem risk_score_ewma (s0 : AgentState) (ps : List (ℚ × Perception))
    (hne : ∀ tp ∈ ps, tp.2.transcript ≠ "")
    (hb : ∀ tp ∈ ps, 0 ≤ risk_of tp.2 ∧ risk_of tp.2 ≤ 1) :
    (run_perceptions (start_call s0) ps).risk_score
      = ewma_spec (ps.map (fun tp => risk_of tp.2)) ∧
    0 ≤ (run_perceptions (start_call s0) ps).risk_score ∧
    (run_perceptions (start_call s0) ps).risk_score ≤ 1 := by
  have hrisk := run_perceptions_risk ps (start_call s0) hne
  have hstart : (start_call s0).risk_score = 0 := rfl
  rw [hstart] at hrisk
  have hbm : ∀ r ∈ ps.map (fun tp => risk_of tp.2), 0 ≤ r ∧ r ≤ 1 := by
    intro r hr
    rcases List.mem_map.mp hr with ⟨tp, htp, hEq⟩
    exact hEq ▸ hb tp htp
  have hbounds := ewma_fold_bounds (ps.map (fun tp => risk_of tp.2)) 0
    le_rfl (by norm_num) hbm
  refine ⟨?_, ?_, ?_⟩
  · rw [hrisk, ewma_fold_eq]
    rfl
  · rw [hrisk]
    exact hbounds.1
  · rw [hrisk]
    exact hbounds.2

/-- C4, witness at a two-element input sequence. -/
theorem risk_score_ewma_witness :
    (∀ tp ∈ [((0 : ℚ), pR1), ((0 : ℚ), pRh)], tp.2.transcript ≠ "") ∧
    (run_perceptions (start_call initAgent) [((0 : ℚ), pR1), ((0 : ℚ), pRh)]).risk_score
      = ewma_spec ([((0 : ℚ), pR1), ((0 : ℚ), pRh)].map (fun tp => risk_of tp.2)) := by
  have hne : ∀ tp ∈ [((0 : ℚ), pR1), ((0 : ℚ), pRh)], tp.2.transcript ≠ "" := by
    intro tp htp
    simp only [List.mem_cons, List.not_mem_nil, or_false] at htp
    rcases htp with h | h <;> subst h <;> decide
  have hb : ∀ tp ∈ [((0 : ℚ), pR1), ((0 : ℚ), pRh)],
      0 ≤ risk_of tp.2 ∧ risk_of tp.2 ≤ 1 := by
    intro tp htp
    simp only [List.mem_cons, List.not_mem_nil, or_false] at htp
    rcases htp with h | h <;> subst h <;> constructor <;> norm_num [risk_of, pR1, pRh]
  exact ⟨hne, (risk_score_ewma initAgent _ hne hb).1⟩

/-- C7: the transcript buffer never exceeds 50 entries on any run, and when
the buffer is full, one perceive pass evicts exactly the oldest entry and
appends the new one at the back. -/
theorem transcript_ring_buffer (s0 : AgentState) (ps : List (ℚ × Perception)) :
    (run_perceptions (start_call s0) ps).call_transcript.length ≤ 50 ∧
    (∀ s : AgentState, ∀ now : ℚ, ∀ p : Perception, p.transcript ≠ "" →
      s.call_transcript.length ≤ 50 →
      (perceive s now p).state.call_transcript =
        (if s.call_transcript.length = 50 then s.call_transcript.drop 1
         else s.call_transcript) ++ [entry_of p now]) := by
  constructor
  · exact run_perceptions_length_le ps _ (by simp [start_call])
  · intro s now p hne hlen
    rw [perceive_transcript s now p hne]
    by_cases h : s.call_transcript.length = 50
    · have h1 : s.call_transcript.length + 1 > 50 := by omega
      rw [if_pos h1, if_pos h,
        List.drop_append_of_le_length (by omega)]
    · have h1 : ¬ (s.call_transcript.length + 1 > 50) := by omega
      rw [if_neg h1, if_neg h]

/-- C7, witness: a one-step run stays within the bound, and a full buffer
evicts its head. -/
theorem transcript_ring_buffer_witness :
    (run_perceptions (start_call initAgent) [((0 : ℚ), pHi)]).call_transcript.length ≤ 50 ∧
    pHi.transcript ≠ "" ∧
    initAgent.call_transcript.length ≤ 50 ∧
    (perceive initAgent 0 pHi).state.call_transcript =
      (if initAgent.call_transcript.length = 50 then initAgent.call_transcript.drop 1
       else initAgent.call_transcript) ++ [entry_of pHi 0] :=
  ⟨(transcript_ring_buffer initAgent [((0 : ℚ), pHi)]).1, by decide, by decide,
    (transcript_ring_buffer initAgent []).2 initAgent 0 pHi (by decide) (by decide)⟩

/-- C5, counterexample: when transcription succeeds and emotion
classification fails, the emitted Perception carries the fallback emotion
without any `risk_level` key, so the risk update uses 0, not 0.2. -/
theorem neutral_fallback_counterexample :
    on_audio_chunk true 1 (Except.ok "hello") (Except.error ()) =
      some { transcript := "hello", emotion := neutral_fallback_emotion } ∧
    neutral_fallback_emotion.risk_level = none ∧
    risk_of { transcript := "hello", emotion := neutral_fallback_emotion } = 0 ∧
    ((0 : ℚ) ≠ 0.2) ∧
    (perceive initAgent 0
      { transcript := "hello", emotion := neutral_fallback_emotion }).state.risk_score = 0 := by
  have h02 : ¬ ((1 : ℚ) < 0.2) := by norm_num
  refine ⟨?_, rfl, rfl, by norm_num, ?_⟩
  · unfold on_audio_chunk
    simp only [Bool.not_true, if_neg h02]
    rfl
  · rw [perceive_risk _ _ _ (by decide)]
    norm_num [risk_of, neutral_fallback_emotion, initAgent]

/-- C5, amended: a failed emotion classification substitutes
`{label: neutral, score: 0.5}` with no `risk_level` field, and the
subsequent risk update therefore uses `new_risk = 0`: the new risk score is
`0.7 · old`, not `0.7 · old + 0.3 · 0.2`. -/
theorem neutral_fallback_amended (t : String) (ratio : ℚ) (s : AgentState) (now : ℚ)
    (ht : (t == "") = false) (hs : (stripString t == "") = false)
    (hr : ¬ ratio < 0.2) :
    on_audio_chunk true ratio (Except.ok t) (Except.error ()) =
      some { transcript := t, emotion := neutral_fallback_emotion } ∧
    neutral_fallback_emotion =
      { label := some "neutral", score := some 0.5, risk_level := none } ∧
    (perceive s now { transcript := t, emotion := neutral_fallback_emotion }).state.risk_score
      = s.risk_score * 0.7 := by
  refine ⟨?_, rfl, ?_⟩
  · unfold on_audio_chunk
    simp only [Bool.not_true, if_neg hr, ht, hs]
    rfl
  · have hne : ({ transcript := t, emotion := neutral_fallback_emotion } : Perception).transcript ≠ "" := by
      simpa using ht
    rw [perceive_risk _ _ _ hne]
    norm_num [risk_of, neutral_fallback_emotion]

/-- C5, witness for the amended statement. -/
theorem neutral_fallback_amended_witness :
    (("hello" == "") = false) ∧ ((stripString "hello" == "") = false) ∧
    (¬ (1 : ℚ) < 0.2) ∧
    (perceive initAgent 0
      { transcript := "hello", emotion := neutral_fallback_emotion }).state.risk_score
      = initAgent.risk_score * 0.7 :=
  ⟨by decide, by decide, by norm_num,
    (neutral_fallback_amended "hello" 1 initAgent 0 (by decide) (by decide)
      (by norm_num)).2.2⟩

/-- C6, counterexample: `end_call` leaves the session state unchanged and
sets no terminal flag; a perceive call after `end_call` still grows the
transcript history. -/
theorem ended_session_counterexample :
    (end_call (perceive initAgent 0 pHi).state).state = (perceive initAgent 0 pHi).state ∧
    (perceive initAgent 0 pHi).state.call_transcript.length = 1 ∧
    (perceive (end_call (perceive initAgent 0 pHi).state).state 1 pHi).state.call_transcript.length = 2 := by
  have h1 : (perceive initAgent 0 pHi).state.call_transcript.length = 1 := by
    rw [perceive_of_ne _ _ _ (by decide), (decide_and_act_fields _ _ _).1,
      perceive_state_update_length]
    rfl
  refine ⟨rfl, h1, ?_⟩
  rw [perceive_of_ne _ _ _ (by decide), (decide_and_act_fields _ _ _).1,
    perceive_state_update_length]
  unfold end_call
  rw [h1]
  norm_num

/-- C6, amended: `end_call` computes its summary flags from the state but
transitions to no terminal state — any later perceive call behaves exactly
as if `end_call` had not happened; suppression of post-call audio is the
pipeline's `_running` flag, not session state. -/
theorem end_call_not_terminal (s : AgentState) (now : ℚ) (p : Perception) :
    (end_call s).state = s ∧
    perceive (end_call s).state now p = perceive s now p ∧
    (end_call s).crm_logged = decide (s.call_transcript.length > 3) ∧
    (end_call s).stored = decide (s.call_transcript.length > 3) ∧
    (∀ ratio tr em, on_audio_chunk false ratio tr em = none) :=
  ⟨rfl, rfl, rfl, rfl, fun _ _ _ => rfl⟩

/-- C8, counterexample: after 16 accepted Perceptions the orchestrator's
emotion timeline holds 16 entries — it is not bounded by any M ≤ 15. -/
theorem emotion_timeline_unbounded_counterexample :
    (run_perceptions initAgent (List.replicate 16 ((100 : ℚ), pHi))).emotion_timeline.length = 16 ∧
    ¬ (16 ≤ 15) :=
  ⟨(run_pHi 16).2.2.2, by omega⟩

/-- The pipeline context fold keeps both buffers at 15 entries or fewer and
of equal length. -/
lemma pipeline_fold_bound (ctxs : List (String × Emotion)) :
    ∀ c0 : List String × List Emotion,
      c0.1.length ≤ 15 → c0.2.length = c0.1.length →
      (ctxs.foldl (fun acc te => pipeline_context_update acc te.1 te.2) c0).1.length ≤ 15 ∧
      (ctxs.foldl (fun acc te => pipeline_context_update acc te.1 te.2) c0).2.length =
        (ctxs.foldl (fun acc te => pipeline_context_update acc te.1 te.2) c0).1.length := by
  induction ctxs with
  | nil => intro c0 h1 h2; exact ⟨h1, h2⟩
  | cons te ctxs ih =>
    intro c0 h1 h2
    rw [List.foldl_cons]
    have hstep : (pipeline_context_update c0 te.1 te.2).1.length ≤ 15 ∧
        (pipeline_context_update c0 te.1 te.2).2.length =
          (pipeline_context_update c0 te.1 te.2).1.length := by
      unfold pipeline_context_update
      dsimp only
      by_cases h : (c0.1 ++ [te.1]).length > 15
      · rw [if_pos h]
        simp only [List.length_drop, List.length_append, List.length_cons,
          List.length_nil] at h ⊢
        omega
      · rw [if_neg h]
        simp only [List.length_append, List.length_cons, List.length_nil] at h ⊢
        omega
    exact ih _ hstep.1 hstep.2

/-- C8, amended: the audio pipeline's transcript/emotion context buffers
are bounded at 15 entries (within the claimed 5–15 range), but the
orchestrator session state's `emotion_timeline` is unbounded: it grows by
one per accepted Perception for the whole call. -/
theorem emotion_history_bounds (ctxs : List (String × Emotion))
    (c0 : List String × List Emotion) (ps : List (ℚ × Perception)) (s : AgentState)
    (h1 : c0.1.length ≤ 15) (h2 : c0.2.length = c0.1.length)
    (hne : ∀ tp ∈ ps, tp.2.transcript ≠ "") :
    (ctxs.foldl (fun acc te => pipeline_context_update acc te.1 te.2) c0).1.length ≤ 15 ∧
    (ctxs.foldl (fun acc te => pipeline_context_update acc te.1 te.2) c0).2.length ≤ 15 ∧
    (run_perceptions s ps).emotion_timeline.length =
      s.emotion_timeline.length + ps.length := by
  obtain ⟨ha, hb⟩ := pipeline_fold_bound ctxs c0 h1 h2
  exact ⟨ha, by omega, run_perceptions_timeline ps s hne⟩

/-- C8, witness for the amended statement. -/
theorem emotion_history_bounds_witness :
    ((([], []) : List String × List Emotion).1.length ≤ 15) ∧
    (run_perceptions initAgent [((0 : ℚ), pHi)]).emotion_timeline.length =
      initAgent.emotion_timeline.length + 1 := by
  have h := emotion_history_bounds [] (([], []) : List String × List Emotion)
    [((0 : ℚ), pHi)] initAgent (by decide) rfl
    (by intro tp htp; simp only [List.mem_cons, List.not_mem_nil, or_false] at htp; subst htp; decide)
  exact ⟨by decide, h.2.2⟩

/-- C9, amended: for a Perception on which no reflex fires, a consultation
is launched exactly when the cooldown has elapsed AND (risk > 0.4, or a
trigger keyword matches, or the post-update transcript-buffer length —
`min (n+1) 50`, not the total accepted count — is a multiple of 10). -/
theorem consult_gate_exact (s : AgentState) (now : ℚ) (p : Perception)
    (hne : p.transcript ≠ "")
    (hrefl : instant_rules (perceive_state_update s now p).risk_score
      p.emotion p.transcript = none)
    (hlen : s.call_transcript.length ≤ 50) :
    (perceive s now p).consult_launched =
      (decide (now - s.last_intervention_time ≥ intervention_cooldown) &&
       (decide ((perceive_state_update s now p).risk_score > 0.4) ||
        has_keyword_trigger p.transcript ||
        decide ((min (s.call_transcript.length + 1) 50 % 10 == 0) = true))) := by
  have hL : (perceive_state_update s now p).call_transcript.length =
      min (s.call_transcript.length + 1) 50 := by
    rw [perceive_state_update_length]
    split <;> omega
  rw [consult_launched_eq s now p hne hrefl, hL]

/-- C9, witness for the amended statement. -/
theorem consult_gate_exact_witness :
    pTrig.transcript ≠ "" ∧
    initAgent.call_transcript.length ≤ 50 ∧
    (perceive initAgent 100 pTrig).consult_launched =
      (decide ((100 : ℚ) - initAgent.last_intervention_time ≥ intervention_cooldown) &&
       (decide ((perceive_state_update initAgent 100 pTrig).risk_score > 0.4) ||
        has_keyword_trigger pTrig.transcript ||
        decide ((min (initAgent.call_transcript.length + 1) 50 % 10 == 0) = true))) :=
  ⟨by decide, by decide,
    consult_gate_exact initAgent 100 pTrig (by decide) (instant_rules_pTrig _) (by decide)⟩

/-- C9, counterexample: on the 51st accepted Perception the buffer length is
pinned at 50, so the periodic check-in fires although 51 is not a multiple
of 10, the risk score is 0 and no trigger keyword matches. -/
theorem consult_periodic_counterexample :
    (¬ (51 % 10 = 0)) ∧
    has_keyword_trigger pHi.transcript = false ∧
    (run_perceptions initAgent (List.replicate 50 ((100 : ℚ), pHi))).risk_score = 0 ∧
    (perceive (run_perceptions initAgent (List.replicate 50 ((100 : ℚ), pHi))) 100 pHi).consult_launched = true := by
  obtain ⟨hr, hl, hc, ht⟩ := run_pHi 50
  refine ⟨by omega, by decide, hr, ?_⟩
  rw [consult_launched_eq _ 100 pHi (by decide) (instant_rules_pHi _), hl]
  have h8 : ((100 : ℚ) - 0 ≥ intervention_cooldown) := by
    unfold intervention_cooldown
    norm_num
  have hlen : (perceive_state_update
      (run_perceptions initAgent (List.replicate 50 ((100 : ℚ), pHi))) 100 pHi).call_transcript.length = 50 := by
    rw [perceive_state_update_length, hc]
    norm_num
  rw [hlen]
  simp [decide_eq_true h8]
  linarith

/-- Dropping a failing predicate from the head leaves a list unchanged. -/
lemma dropWhile_eq_self_of_head {p : Char → Bool} {s : Str}
    (h : ∀ c, s.head? = some c → p c = false) :
    s.dropWhile p = s := by
  cases s with
  | nil => rfl
  | cons a t => simp [List.dropWhile_cons, h a rfl]

/-- Stripping is the identity when both ends are non-whitespace. -/
lemma stripL_eq_self {s : Str}
    (h1 : ∀ c, s.head? = some c → isPyWs c = false)
    (h2 : ∀ c, s.getLast? = some c → isPyWs c = false) :
    stripL s = s := by
  unfold stripL
  rw [dropWhile_eq_self_of_head h1]
  rw [dropWhile_eq_self_of_head (fun c hc =>
    h2 c (by rw [List.getLast?_eq_head?_reverse]; exact hc))]
  exact List.reverse_reverse s

/-- Substring occurrence, characterized through suffixes and prefixes. -/
lemma occurs_iff {pat s : Str} :
    occurs pat s = true ↔ ∃ t, t <:+ s ∧ pat <+: t := by
  induction s with
  | nil =>
    constructor
    · intro h
      refine ⟨[], List.suffix_refl [], ?_⟩
      unfold occurs at h
      simp only [List.isEmpty_iff] at h
      simp [h]
    · rintro ⟨t, hts, htp⟩
      have ht : t = [] := List.suffix_nil.mp hts
      subst ht
      have : pat = [] := List.prefix_nil.mp htp
      subst this
      rfl
  | cons c cs ih =>
    constructor
    · intro h
      unfold occurs at h
      rcases Bool.or_eq_true_iff.mp h with hp | ho
      · exact ⟨c :: cs, List.suffix_refl _, List.isPrefixOf_iff_prefix.mp hp⟩
      · obtain ⟨t, hts, htp⟩ := ih.mp ho
        exact ⟨t, hts.trans (List.suffix_cons c cs), htp⟩
    · rintro ⟨t, hts, htp⟩
      unfold occurs
      rcases List.suffix_cons_iff.mp hts with h | h
      · subst h
        rw [List.isPrefixOf_iff_prefix.mpr htp]
        rfl
      · rw [ih.mpr ⟨t, h, htp⟩]
        simp

/-- An occurrence survives appending on the right. -/
lemma occurs_append_left {pat b d : Str} (h : occurs pat b = true) :
    occurs pat (b ++ d) = true := by
  rw [occurs_iff] at h ⊢
  obtain ⟨t, ⟨u, hu⟩, htp⟩ := h
  exact ⟨t ++ d, ⟨u, by rw [← List.append_assoc, hu]⟩,
    htp.trans (List.prefix_append t d)⟩

/-- A pattern that is a prefix occurs. -/
lemma occurs_of_prefix {pat s : Str} (h : pat <+: s) : occurs pat s = true := by
  rw [occurs_iff]
  exact ⟨s, List.suffix_refl s, h⟩

/-- The replacement scan is the identity on the empty string. -/
lemma replaceAllF_nil (p0 : Char) (prest rep : Str) (fuel : Nat) :
    replaceAllF p0 prest rep fuel [] = [] := by
  cases fuel <;> rfl

/-- A replacement with no occurrence of the pattern is the identity. -/
lemma replaceAllF_of_not_occurs (p0 : Char) (prest rep : Str) :
    ∀ (fuel : Nat) (s : Str), occurs (p0 :: prest) s = false →
      replaceAllF p0 prest rep fuel s = s := by
  intro fuel
  induction fuel with
  | zero => intro s _; rfl
  | succ fuel ih =>
    intro s h
    cases s with
    | nil => rfl
    | cons c cs =>
      unfold occurs at h
      rw [Bool.or_eq_false_iff] at h
      unfold replaceAllF
      rw [if_neg (by rw [h.1]; exact Bool.false_ne_true), ih cs h.2]

/-- Python `str.replace` with no occurrence of the pattern is the
identity. -/
lemma replaceAll_of_not_occurs (p0 : Char) (prest rep : Str) (s : Str)
    (h : occurs (p0 :: prest) s = false) :
    replaceAll p0 prest rep s = s :=
  replaceAllF_of_not_occurs p0 prest rep s.length s h

/-- The first index of a character at the head. -/
lemma firstIdx_of_head {c : Char} {s : Str} (h : s.head? = some c) :
    firstIdx c s = some 0 := by
  cases s with
  | nil => simp at h
  | cons a t =>
    have : a = c := by
      simpa using h
    unfold firstIdx
    rw [if_pos this]

/-- Unfolding equation of `firstIdx` at a cons cell. -/
lemma firstIdx_cons (c x : Char) (xs : Str) :
    firstIdx c (x :: xs) =
      if x = c then some 0 else (firstIdx c xs).map (· + 1) := rfl

/-- The first index skips a prefix free of the character. -/
lemma firstIdx_append_of_not_mem {c : Char} {a : Str} (s : Str) (h : c ∉ a) :
    firstIdx c (a ++ s) = (firstIdx c s).map (· + a.length) := by
  induction a with
  | nil =>
    cases hF : firstIdx c s <;> simp [hF]
  | cons x xs ih =>
    have hx : x ≠ c := fun hE => h (by rw [hE]; exact List.mem_cons_self c xs)
    rw [List.cons_append, firstIdx_cons, if_neg hx,
      ih (fun hm => h (List.mem_cons_of_mem _ hm))]
    cases hF : firstIdx c s
    · simp [hF]
    · simp [hF]
      omega

/-- The first brace of prose-free-wrapped text is the object's opening
brace. -/
lemma firstIdx_concat_mid {a s b : Str} (ha : lbraceC ∉ a)
    (hs : s.head? = some lbraceC) :
    firstIdx lbraceC (a ++ s ++ b) = some a.length := by
  rw [List.append_assoc, firstIdx_append_of_not_mem _ ha]
  have hsb : (s ++ b).head? = some lbraceC := by
    rw [List.head?_append, hs]
    rfl
  rw [firstIdx_of_head hsb]
  simp

/-- The last brace of prose-free-wrapped text is the object's closing
brace. -/
lemma lastIdx_concat_mid {a s b : Str} (hb : rbraceC ∉ b)
    (hs : s.getLast? = some rbraceC) :
    lastIdx rbraceC (a ++ s ++ b) = some (a.length + s.length - 1) := by
  have hsne : s ≠ [] := by
    intro hE
    rw [hE] at hs
    simp at hs
  unfold lastIdx
  rw [List.reverse_append, List.reverse_append]
  rw [firstIdx_append_of_not_mem _ (by simpa using hb)]
  have hrev : (s.reverse ++ a.reverse).head? = some rbraceC := by
    rw [List.head?_append, ← List.getLast?_eq_head?_reverse, hs]
    rfl
  rw [firstIdx_of_head hrev]
  have hlen : 1 ≤ s.length := by
    cases s with
    | nil => exact absurd rfl hsne
    | cons x t => simp
  simp
  omega

/-- Slicing the middle component out of a concatenation. -/
lemma sliceIncl_concat {a b : Str} (s : Str) (h : 1 ≤ s.length) :
    sliceIncl (a ++ s ++ b) a.length (a.length + s.length - 1) = s := by
  unfold sliceIncl
  rw [List.append_assoc, List.drop_left]
  have : a.length + s.length - 1 + 1 - a.length = s.length := by omega
  rw [this, List.take_left]

/-- A prefix no longer than the left part of an append is a prefix of that
part. -/
lemma prefix_append_short {pat a d : Str} (h : pat <+: a ++ d)
    (hl : pat.length ≤ a.length) : pat <+: a := by
  rw [List.prefix_iff_eq_take] at h
  rw [List.take_append_of_le_length hl] at h
  rw [h]
  exact List.take_prefix _ _

/-- Suffix decomposition over an append. -/
lemma suffix_append_cases {t b d : Str} (h : t <:+ b ++ d) :
    t <:+ d ∨ (∃ t', t' <:+ b ∧ t' ≠ [] ∧ t = t' ++ d) := by
  induction b with
  | nil =>
    left
    simpa using h
  | cons x b ih =>
    rw [List.cons_append] at h
    rcases List.suffix_cons_iff.mp h with hE | hS
    · right
      exact ⟨x :: b, List.suffix_refl _, by simp, by rw [hE, List.cons_append]⟩
    · rcases ih hS with h1 | ⟨t', ht1, ht2, ht3⟩
      · left
        exact h1
      · right
        exact ⟨t', ht1.trans (List.suffix_cons x b), ht2, ht3⟩

/-- An object text between a brace head and a brace tail has at least two
characters. -/
lemma two_le_length_of_braces {s : Str} (hhead : s.head? = some lbraceC)
    (hlast : s.getLast? = some rbraceC) : 2 ≤ s.length := by
  cases s with
  | nil => simp at hhead
  | cons a t =>
    cases t with
    | nil =>
      have h1 : a = lbraceC := by simpa using hhead
      have h2 : a = rbraceC := by simpa using hlast
      rw [h1] at h2
      exact absurd h2 (by decide)
    | cons b u => simp

/-- The head of an append with a non-empty left part. -/
lemma head?_append_left {a b : Str} (h : a ≠ []) : (a ++ b).head? = a.head? := by
  cases a with
  | nil => exact absurd rfl h
  | cons x t => rfl

/-- The last element of an append with a non-empty right part. -/
lemma getLast?_append_right {a b : Str} (h : b ≠ []) :
    (a ++ b).getLast? = b.getLast? := by
  rw [List.getLast?_eq_head?_reverse, List.reverse_append,
    head?_append_left (by simpa using h), ← List.getLast?_eq_head?_reverse]

/-- Membership survives `dropWhile`. -/
lemma mem_of_mem_dropWhile {p : Char → Bool} {a : Str} {x : Char}
    (h : x ∈ a.dropWhile p) : x ∈ a := by
  induction a with
  | nil => simp at h
  | cons c t ih =>
    rw [List.dropWhile_cons] at h
    by_cases hc : p c = true
    · rw [if_pos hc] at h
      exact List.mem_cons_of_mem _ (ih h)
    · rw [if_neg hc] at h
      exact h

/-- Dropping over a prefix that is entirely accepted. -/
lemma dropWhile_append_all {p : Char → Bool} {a : Str} (x : Str)
    (h : ∀ c ∈ a, p c = true) :
    (a ++ x).dropWhile p = x.dropWhile p := by
  induction a with
  | nil => rfl
  | cons c t ih =>
    rw [List.cons_append, List.dropWhile_cons, if_pos (h c (List.mem_cons_self c t))]
    exact ih (fun d hd => h d (List.mem_cons_of_mem _ hd))

/-- Dropping stops inside a prefix containing a rejected character. -/
lemma dropWhile_append_exists {p : Char → Bool} {a : Str} (x : Str)
    (h : ∃ c ∈ a, p c = false) :
    (a ++ x).dropWhile p = a.dropWhile p ++ x := by
  induction a with
  | nil =>
    obtain ⟨c, hc, _⟩ := h
    simp at hc
  | cons c t ih =>
    by_cases hc : p c = true
    · have ht : ∃ d ∈ t, p d = false := by
        obtain ⟨d, hd, hdp⟩ := h
        rcases List.mem_cons.mp hd with hE | hm
        · rw [hE, hc] at hdp
          exact absurd hdp (by simp)
        · exact ⟨d, hm, hdp⟩
      rw [List.cons_append, List.dropWhile_cons, if_pos hc, List.dropWhile_cons,
        if_pos hc]
      exact ih ht
    · rw [List.cons_append, List.dropWhile_cons, if_neg hc, List.dropWhile_cons,
        if_neg hc, List.cons_append]

/-- After dropping over a prefix with a rejected character, the result is
non-empty and starts with a rejected character. -/
lemma dropWhile_exists_spec {p : Char → Bool} {a : Str}
    (h : ∃ c ∈ a, p c = false) :
    a.dropWhile p ≠ [] ∧ ∀ d, (a.dropWhile p).head? = some d → p d = false := by
  induction a with
  | nil =>
    obtain ⟨c, hc, _⟩ := h
    simp at hc
  | cons c t ih =>
    by_cases hc : p c = true
    · have ht : ∃ d ∈ t, p d = false := by
        obtain ⟨d, hd, hdp⟩ := h
        rcases List.mem_cons.mp hd with hE | hm
        · rw [hE, hc] at hdp
          exact absurd hdp (by simp)
        · exact ⟨d, hm, hdp⟩
      rw [List.dropWhile_cons, if_pos hc]
      exact ih ht
    · rw [List.dropWhile_cons, if_neg hc]
      refine ⟨by simp, ?_⟩
      intro d hd
      have hcd : c = d := by simpa using hd
      rw [← hcd]
      cases hx : p c with
      | false => rfl
      | true => exact absurd hx hc

/-- Right-strip passes over a left part when the right part keeps a
non-whitespace character. -/
lemma stripRight_append_exists {a b : Str} (h : ∃ c ∈ b, isPyWs c = false) :
    stripRight (a ++ b) = a ++ stripRight b := by
  unfold stripRight
  rw [List.reverse_append, dropWhile_append_exists _ (by
    obtain ⟨c, hc, hcp⟩ := h
    exact ⟨c, List.mem_reverse.mpr hc, hcp⟩)]
  rw [List.reverse_append, List.reverse_reverse]

/-- Right-strip ignores an all-whitespace right part. -/
lemma stripRight_append_all {a b : Str} (h : ∀ c ∈ b, isPyWs c = true) :
    stripRight (a ++ b) = stripRight a := by
  unfold stripRight
  rw [List.reverse_append, dropWhile_append_all _ (fun c hc =>
    h c (List.mem_reverse.mp hc))]

/-- Right-strip is the identity when the last character is not
whitespace. -/
lemma stripRight_eq_self {s : Str}
    (h : ∀ c, s.getLast? = some c → isPyWs c = false) :
    stripRight s = s := by
  unfold stripRight
  rw [dropWhile_eq_self_of_head (fun c hc =>
    h c (by rw [List.getLast?_eq_head?_reverse]; exact hc))]
  exact List.reverse_reverse s

/-- Right-strip of an all-whitespace text is empty. -/
lemma stripRight_eq_nil {b : Str} (h : ∀ c ∈ b, isPyWs c = true) :
    stripRight b = [] := by
  have := stripRight_append_all (a := ([] : Str)) h
  simpa using this

/-- Membership survives right-strip. -/
lemma stripRight_subset {b : Str} : ∀ x ∈ stripRight b, x ∈ b := by
  intro x hx
  unfold stripRight at hx
  rw [List.mem_reverse] at hx
  exact List.mem_reverse.mp (mem_of_mem_dropWhile hx)

/-- `stripL` is left strip followed by right strip. -/
lemma stripL_eq (s : Str) : stripL s = stripRight (s.dropWhile isPyWs) := rfl

/-- The replacement scan does not depend on the fuel once the fuel covers
the input length. -/
lemma replaceAllF_fuel (p0 : Char) (prest rep : Str) :
    ∀ (fuel1 : Nat) (s : Str) (fuel2 : Nat), s.length ≤ fuel1 → s.length ≤ fuel2 →
      replaceAllF p0 prest rep fuel1 s = replaceAllF p0 prest rep fuel2 s := by
  intro fuel1
  induction fuel1 with
  | zero =>
    intro s fuel2 h1 _
    have hs : s = [] := List.length_eq_zero.mp (Nat.le_zero.mp h1)
    subst hs
    rw [replaceAllF_nil, replaceAllF_nil]
  | succ f ih =>
    intro s fuel2 h1 h2
    cases s with
    | nil => rw [replaceAllF_nil, replaceAllF_nil]
    | cons c cs =>
      cases fuel2 with
      | zero => simp at h2
      | succ f2 =>
        simp only [replaceAllF]
        by_cases hP : (p0 :: prest).isPrefixOf (c :: cs) = true
        · rw [if_pos hP, if_pos hP, ih (cs.drop prest.length) f2
            (by simp only [List.length_drop]; simp at h1; omega)
            (by simp only [List.length_drop]; simp at h2; omega)]
        · rw [if_neg hP, if_neg hP,
            ih cs f2 (by simp at h1; omega) (by simp at h2; omega)]

/-- The replacement scan at the canonical fuel. -/
lemma replaceAllF_eq_replaceAll (p0 : Char) (prest rep : Str) (fuel : Nat) (s : Str)
    (h : s.length ≤ fuel) :
    replaceAllF p0 prest rep fuel s = replaceAll p0 prest rep s :=
  replaceAllF_fuel p0 prest rep fuel s s.length h le_rfl

/-- `replaceAll` on the empty string. -/
lemma replaceAll_nil (p0 : Char) (prest rep : Str) :
    replaceAll p0 prest rep [] = [] := rfl

/-- `replaceAll` when the pattern matches at the head: emit the replacement
and resume after the matched span. -/
lemma replaceAll_cons_pos {p0 : Char} {prest rep : Str} {c : Char} {cs : Str}
    (hP : (p0 :: prest).isPrefixOf (c :: cs) = true) :
    replaceAll p0 prest rep (c :: cs) =
      rep ++ replaceAll p0 prest rep (cs.drop prest.length) := by
  show replaceAllF p0 prest rep (cs.length + 1) (c :: cs) = _
  simp only [replaceAllF]
  rw [if_pos hP, replaceAllF_eq_replaceAll _ _ _ _ _
    (by simp only [List.length_drop]; omega)]

/-- `replaceAll` when the pattern does not match at the head: keep the
character and scan on. -/
lemma replaceAll_cons_neg {p0 : Char} {prest rep : Str} {c : Char} {cs : Str}
    (hP : ¬ (p0 :: prest).isPrefixOf (c :: cs) = true) :
    replaceAll p0 prest rep (c :: cs) = c :: replaceAll p0 prest rep cs := by
  show replaceAllF p0 prest rep (cs.length + 1) (c :: cs) = _
  simp only [replaceAllF]
  rw [if_neg hP, replaceAllF_eq_replaceAll _ _ _ _ _ le_rfl]

/-- Python `str.replace` distributes over an append when no occurrence of
the pattern crosses the boundary. -/
lemma replaceAll_append_split (p0 : Char) (prest rep : Str) :
    ∀ (n : Nat) (b x : Str), b.length ≤ n →
      (∀ i, i < b.length → b.length < i + (p0 :: prest).length →
        ¬ (p0 :: prest) <+: ((b ++ x).drop i)) →
      replaceAll p0 prest rep (b ++ x) =
        replaceAll p0 prest rep b ++ replaceAll p0 prest rep x := by
  intro n
  induction n with
  | zero =>
    intro b x hb _
    have : b = [] := List.length_eq_zero.mp (Nat.le_zero.mp hb)
    subst this
    rw [List.nil_append, replaceAll_nil, List.nil_append]
  | succ n ih =>
    intro b x hb hcross
    cases b with
    | nil => rw [List.nil_append, replaceAll_nil, List.nil_append]
    | cons c b' =>
      by_cases hP : (p0 :: prest).isPrefixOf (c :: (b' ++ x)) = true
      · have hpx : (p0 :: prest) <+: ((c :: b') ++ x) := by
          rw [List.cons_append]
          exact List.isPrefixOf_iff_prefix.mp hP
        have hple : (p0 :: prest).length ≤ (c :: b').length := by
          by_contra hgt
          push_neg at hgt
          refine hcross 0 (by simp) (by simpa using hgt) ?_
          rw [List.drop_zero]
          exact hpx
        have hpre : (p0 :: prest) <+: (c :: b') := prefix_append_short hpx hple
        obtain ⟨b2, hb2⟩ := hpre
        have hcb : c = p0 ∧ prest ++ b2 = b' := by
          rw [List.cons_append] at hb2
          injection hb2 with h1 h2
          exact ⟨h1.symm, h2⟩
        have hP' : (p0 :: prest).isPrefixOf (c :: b') = true :=
          List.isPrefixOf_iff_prefix.mpr ⟨b2, hb2⟩
        have hdropL : (b' ++ x).drop prest.length = b2 ++ x := by
          rw [← hcb.2, List.append_assoc, List.drop_left]
        have hdropR : b'.drop prest.length = b2 := by
          rw [← hcb.2, List.drop_left]
        have hb2len : b2.length ≤ n := by
          have := congrArg List.length hb2
          simp at this hb
          omega
        have hcross2 : ∀ i, i < b2.length → b2.length < i + (p0 :: prest).length →
            ¬ (p0 :: prest) <+: ((b2 ++ x).drop i) := by
          intro i hi1 hi2 hp
          have hdrop : (b2 ++ x).drop i = ((c :: b') ++ x).drop ((p0 :: prest).length + i) := by
            have hsplit : (c :: b') ++ x = (p0 :: prest) ++ (b2 ++ x) := by
              rw [← hb2, List.append_assoc]
            rw [hsplit, ← List.drop_drop, List.drop_left]
          have hlen : (c :: b').length = (p0 :: prest).length + b2.length := by
            have := congrArg List.length hb2
            simp at this ⊢
            omega
          refine hcross ((p0 :: prest).length + i) (by omega) (by omega) ?_
          rw [← hdrop]
          exact hp
        rw [List.cons_append, replaceAll_cons_pos hP, hdropL,
          replaceAll_cons_pos hP', hdropR, ih b2 x hb2len hcross2,
          List.append_assoc]
      · have hP' : ¬ (p0 :: prest).isPrefixOf (c :: b') = true := by
          intro hT
          apply hP
          apply List.isPrefixOf_iff_prefix.mpr
          have h1 := List.isPrefixOf_iff_prefix.mp hT
          have h2 : (c :: b') <+: (c :: b') ++ x := List.prefix_append _ _
          rw [List.cons_append] at h2
          exact h1.trans h2
        have hcross2 : ∀ i, i < b'.length → b'.length < i + (p0 :: prest).length →
            ¬ (p0 :: prest) <+: ((b' ++ x).drop i) := by
          intro i hi1 hi2 hp
          refine hcross (i + 1) ?_ ?_ ?_
          · simp only [List.length_cons]
            omega
          · simp only [List.length_cons] at hi2 ⊢
            omega
          · rw [List.cons_append, List.drop_succ_cons]
            exact hp
        rw [List.cons_append, replaceAll_cons_neg hP, replaceAll_cons_neg hP',
          ih b' x (by simp at hb; omega) hcross2, List.cons_append]

/-- Dropping all but the last character leaves that character. -/
lemma drop_length_pred {b : Str} (h : b ≠ []) :
    b.drop (b.length - 1) = [b.getLast h] := by
  have h2 := List.drop_left b.dropLast [b.getLast h]
  rw [List.dropLast_append_getLast h, List.length_dropLast] at h2
  exact h2

/-- The head of `dropLast` on a text with at least two characters. -/
lemma head?_dropLast_of_two {s : Str} (h : 2 ≤ s.length) :
    s.dropLast.head? = s.head? := by
  rcases s with _ | ⟨a, _ | ⟨b, t⟩⟩
  · simp at h
  · simp at h
  · rfl

/-- The greedy brace-span extraction is the identity on a text that starts
with a left brace and ends with a right brace. -/
lemma brace_span_greedy_self {s : Str} (hhead : s.head? = some lbraceC)
    (hlast : s.getLast? = some rbraceC) :
    brace_span_greedy s = s := by
  have hs2 : 2 ≤ s.length := two_le_length_of_braces hhead hlast
  have hfi : firstIdx lbraceC s = some 0 := firstIdx_of_head hhead
  have hli : lastIdx rbraceC s = some (s.length - 1) := by
    unfold lastIdx
    rw [firstIdx_of_head (by rw [← List.getLast?_eq_head?_reverse]; exact hlast)]
    simp
  unfold brace_span_greedy
  rw [hfi, hli]
  dsimp only
  rw [if_pos (by omega)]
  unfold sliceIncl
  rw [List.drop_zero]
  have hT : s.length - 1 + 1 - 0 = s.length := by omega
  rw [hT, List.take_length]

/-- Stripping is the identity on a text with brace ends. -/
lemma stripL_obj {s : Str} (hhead : s.head? = some lbraceC)
    (hlast : s.getLast? = some rbraceC) :
    stripL s = s :=
  stripL_eq_self
    (fun c hc => by rw [hhead] at hc; injection hc with h; rw [← h]; decide)
    (fun c hc => by rw [hlast] at hc; injection hc with h; rw [← h]; decide)

/-- On a text with brace ends the pipeline reduces to the trailing-comma
normalization, whether or not the text contains a fence marker. -/
lemma gemini_text_obj {s : Str} (hhead : s.head? = some lbraceC)
    (hlast : s.getLast? = some rbraceC) :
    gemini_text s = normalize_commas s := by
  have hstrip : stripL s = s := stripL_obj hhead hlast
  unfold gemini_text
  dsimp only
  rw [hstrip]
  cases hf : occurs fence3 s with
  | true =>
    simp only [if_true]
    rw [brace_span_greedy_self hhead hlast, if_pos hhead, hstrip]
  | false =>
    simp only [Bool.false_eq_true, if_false]
    rw [if_pos hhead, hstrip]

/-- The pipeline recovers the object text from its code-fenced form, for
every object text with brace ends. -/
lemma gemini_text_fenced_obj {s : Str} (hhead : s.head? = some lbraceC)
    (hlast : s.getLast? = some rbraceC) :
    gemini_text (fence_pre ++ s ++ fence_post) = normalize_commas s := by
  have hs2 : 2 ≤ s.length := two_le_length_of_braces hhead hlast
  have hstrips : stripL s = s := stripL_obj hhead hlast
  have hstrip0 : stripL (fence_pre ++ s ++ fence_post) =
      fence_pre ++ s ++ fence_post := by
    apply stripL_eq_self
    · intro c hc
      have hH : (fence_pre ++ s ++ fence_post).head? = some btickC := rfl
      rw [hH] at hc
      injection hc with h
      rw [← h]
      decide
    · intro c hc
      have hL : (fence_pre ++ s ++ fence_post).getLast? = some btickC := by
        have hE : fence_pre ++ s ++ fence_post =
            (fence_pre ++ s ++ ['\n', btickC, btickC]) ++ [btickC] := by
          simp [fence_post, fence3]
        rw [hE, List.getLast?_concat]
      rw [hL] at hc
      injection hc with h
      rw [← h]
      decide
  have hocc : occurs fence3 (fence_pre ++ s ++ fence_post) = true := by
    apply occurs_of_prefix
    have hE : fence_pre ++ s ++ fence_post =
        fence3 ++ (("json\n").data ++ s ++ fence_post) := by
      simp [fence_pre, List.append_assoc]
    rw [hE]
    exact List.prefix_append _ _
  have hfi : firstIdx lbraceC (fence_pre ++ s ++ fence_post) =
      some fence_pre.length :=
    firstIdx_concat_mid (by decide) hhead
  have hli : lastIdx rbraceC (fence_pre ++ s ++ fence_post) =
      some (fence_pre.length + s.length - 1) :=
    lastIdx_concat_mid (by decide) hlast
  have hspan : brace_span_greedy (fence_pre ++ s ++ fence_post) = s := by
    unfold brace_span_greedy
    rw [hfi, hli]
    have hfp : fence_pre.length = 8 := by decide
    dsimp only
    rw [if_pos (by omega)]
    exact sliceIncl_concat s (by omega)
  unfold gemini_text
  dsimp only
  rw [hstrip0, hocc]
  simp only [if_true]
  rw [hspan, if_pos hhead, hstrips]

/-- The pipeline recovers the object text from a form with brace-free prose
around it: non-empty-after-stripping leading prose and arbitrary (possibly
empty or all-whitespace) trailing prose. -/
lemma gemini_text_prose_obj {s p1 p2 : Str} (hhead : s.head? = some lbraceC)
    (hlast : s.getLast? = some rbraceC)
    (hp1 : ∀ c ∈ p1, c ≠ lbraceC ∧ c ≠ rbraceC)
    (hp2 : ∀ c ∈ p2, c ≠ lbraceC ∧ c ≠ rbraceC)
    (hp1w : ∃ c ∈ p1, isPyWs c = false) :
    gemini_text (p1 ++ s ++ p2) = normalize_commas s := by
  have hs2 : 2 ≤ s.length := two_le_length_of_braces hhead hlast
  have hsne : s ≠ [] := by
    intro hE
    rw [hE] at hhead
    simp at hhead
  have hstrips : stripL s = s := stripL_obj hhead hlast
  obtain ⟨hq1ne, hq1hd⟩ := dropWhile_exists_spec hp1w
  have hq1sub : ∀ y ∈ p1.dropWhile isPyWs, y ∈ p1 := fun y hy =>
    mem_of_mem_dropWhile hy
  have hq2sub : ∀ y ∈ stripRight p2, y ∈ p2 := stripRight_subset
  have hstrip : stripL (p1 ++ s ++ p2) =
      p1.dropWhile isPyWs ++ s ++ stripRight p2 := by
    rw [stripL_eq, List.append_assoc, dropWhile_append_exists _ hp1w,
      ← List.append_assoc]
    by_cases hW : ∃ c ∈ p2, isPyWs c = false
    · rw [stripRight_append_exists hW]
    · have hall : ∀ c ∈ p2, isPyWs c = true := by
        intro c hc
        cases hx : isPyWs c with
        | true => rfl
        | false => exact absurd ⟨c, hc, hx⟩ hW
      rw [stripRight_append_all hall, stripRight_eq_nil hall, List.append_nil,
        stripRight_append_exists (⟨rbraceC, ?_, by decide⟩), stripRight_eq_self]
      · intro c hc
        rw [hlast] at hc
        injection hc with h
        rw [← h]
        decide
      · have hg : s.getLast hsne = rbraceC := by
          have h2 := List.getLast?_eq_getLast s hsne
          rw [hlast] at h2
          injection h2 with h3
          exact h3.symm
        rw [← hg]
        exact List.getLast_mem hsne
  have hfi : firstIdx lbraceC (p1.dropWhile isPyWs ++ s ++ stripRight p2) =
      some (p1.dropWhile isPyWs).length :=
    firstIdx_concat_mid (fun hm => (hp1 _ (hq1sub _ hm)).1 rfl) hhead
  have hli : lastIdx rbraceC (p1.dropWhile isPyWs ++ s ++ stripRight p2) =
      some ((p1.dropWhile isPyWs).length + s.length - 1) :=
    lastIdx_concat_mid (fun hm => (hp2 _ (hq2sub _ hm)).2 rfl) hlast
  have hq1len : 1 ≤ (p1.dropWhile isPyWs).length := by
    cases hq : p1.dropWhile isPyWs with
    | nil => exact absurd hq hq1ne
    | cons y t => simp [hq]
  unfold gemini_text
  dsimp only
  rw [hstrip]
  cases hf : occurs fence3 (p1.dropWhile isPyWs ++ s ++ stripRight p2) with
  | true =>
    simp only [if_true]
    have hspan : brace_span_greedy (p1.dropWhile isPyWs ++ s ++ stripRight p2) = s := by
      unfold brace_span_greedy
      rw [hfi, hli]
      dsimp only
      rw [if_pos (by omega)]
      exact sliceIncl_concat s (by omega)
    rw [hspan, if_pos hhead, hstrips]
  | false =>
    simp only [Bool.false_eq_true, if_false]
    have hheadne : ¬ ((p1.dropWhile isPyWs ++ s ++ stripRight p2).head? =
        some lbraceC) := by
      rw [List.append_assoc, head?_append_left hq1ne]
      cases hq : (p1.dropWhile isPyWs).head? with
      | none => simp
      | some d =>
        intro hc
        injection hc with h2
        have hd : d ∈ p1 := by
          apply hq1sub
          cases hQ : p1.dropWhile isPyWs with
          | nil => rw [hQ] at hq; simp at hq
          | cons y t =>
            rw [hQ] at hq
            have hyd : y = d := by simpa using hq
            rw [← hyd]
            exact List.mem_cons_self y t
        exact (hp1 _ hd).1 h2
    rw [if_neg hheadne]
    have hslice : brace_slice (p1.dropWhile isPyWs ++ s ++ stripRight p2) = s := by
      unfold brace_slice
      rw [hfi, hli]
      exact sliceIncl_concat s (by omega)
    rw [hslice, hstrips]

/-- The first replace pattern never occurs in the trailing-comma variant of
a well-behaved object text. -/
lemma trailing_comma_no_occ1 {s : Str}
    (hlast : s.getLast? = some rbraceC)
    (hc2 : occurs [',', '\n', rbraceC] s = false) :
    occurs [',', '\n', rbraceC] (s.dropLast ++ [',', rbraceC]) = false := by
  have hsne : s ≠ [] := by
    intro hE
    rw [hE] at hlast
    simp at hlast
  cases hO : occurs [',', '\n', rbraceC] (s.dropLast ++ [',', rbraceC]) with
  | false => rfl
  | true =>
    exfalso
    rw [occurs_iff] at hO
    obtain ⟨t, hts, htp⟩ := hO
    rcases suffix_append_cases hts with hd | ⟨t', ht1, ht2, ht3⟩
    · have h1 := hd.length_le
      have h2 := htp.length_le
      simp at h1 h2
      omega
    · subst ht3
      by_cases hl : 3 ≤ t'.length
      · have hp' : ([',', '\n', rbraceC] : Str) <+: t' :=
          prefix_append_short htp (by simpa using hl)
        have hOs : occurs [',', '\n', rbraceC] s = true := by
          rw [← List.dropLast_append_getLast hsne]
          exact occurs_append_left (occurs_iff.mpr ⟨t', ht1, hp'⟩)
        simp [hc2] at hOs
      · rcases t' with _ | ⟨x, _ | ⟨y, _ | ⟨z, w⟩⟩⟩
        · exact ht2 rfl
        · rw [List.cons_append] at htp
          rcases List.cons_prefix_cons.mp htp with ⟨_, hrest⟩
          rcases List.cons_prefix_cons.mp hrest with ⟨h2, _⟩
          exact absurd h2 (by decide)
        · rw [List.cons_append, List.cons_append] at htp
          rcases List.cons_prefix_cons.mp htp with ⟨_, hrest⟩
          rcases List.cons_prefix_cons.mp hrest with ⟨_, hrest2⟩
          rcases List.cons_prefix_cons.mp hrest2 with ⟨h3, _⟩
          exact absurd h3 (by decide)
        · simp at hl

/-- The trailing-comma normalization maps the trailing-comma variant and
the bare text to the same result: both replaces agree character for
character on the shared body, and the final `,\x7d` of the variant rewrites
to the bare text's final `\x7d`. -/
lemma normalize_trailing_eq {s : Str} (hlast : s.getLast? = some rbraceC)
    (hnl : occurs [',', '\n', rbraceC] s = false)
    (hend : s.dropLast.getLast? ≠ some ',') :
    normalize_commas (s.dropLast ++ [',', rbraceC]) = normalize_commas s := by
  have hsne : s ≠ [] := by
    intro hE
    rw [hE] at hlast
    simp at hlast
  have hg : s.getLast hsne = rbraceC := by
    have h2 := List.getLast?_eq_getLast s hsne
    rw [hlast] at h2
    injection h2 with h3
    exact h3.symm
  have hsplit : s.dropLast ++ [rbraceC] = s := by
    rw [← hg]
    exact List.dropLast_append_getLast hsne
  unfold normalize_commas
  rw [replaceAll_of_not_occurs _ _ _ _ (trailing_comma_no_occ1 hlast hnl),
    replaceAll_of_not_occurs _ _ _ _ hnl]
  conv_rhs => rw [← hsplit]
  by_cases hbe : s.dropLast = []
  · rw [hbe]
    decide
  · have hcross1 : ∀ i, i < s.dropLast.length →
        s.dropLast.length < i + ((',' : Char) :: [rbraceC]).length →
        ¬ ((',' : Char) :: [rbraceC]) <+: ((s.dropLast ++ [',', rbraceC]).drop i) := by
      intro i h1 h2 hp
      have hi : i = s.dropLast.length - 1 := by
        simp only [List.length_cons, List.length_nil] at h2
        omega
      subst hi
      rw [List.drop_append_of_le_length (by omega), drop_length_pred hbe,
        List.singleton_append] at hp
      rcases List.cons_prefix_cons.mp hp with ⟨_, hrest⟩
      rcases List.cons_prefix_cons.mp hrest with ⟨h3, _⟩
      exact absurd h3 (by decide)
    have hcross2 : ∀ i, i < s.dropLast.length →
        s.dropLast.length < i + ((',' : Char) :: [rbraceC]).length →
        ¬ ((',' : Char) :: [rbraceC]) <+: ((s.dropLast ++ [rbraceC]).drop i) := by
      intro i h1 h2 hp
      have hi : i = s.dropLast.length - 1 := by
        simp only [List.length_cons, List.length_nil] at h2
        omega
      subst hi
      rw [List.drop_append_of_le_length (by omega), drop_length_pred hbe,
        List.singleton_append] at hp
      rcases List.cons_prefix_cons.mp hp with ⟨h3, _⟩
      exact hend (by rw [List.getLast?_eq_getLast _ hbe, ← h3])
    rw [replaceAll_append_split ',' [rbraceC] [rbraceC] s.dropLast.length
        s.dropLast [',', rbraceC] le_rfl hcross1,
      replaceAll_append_split ',' [rbraceC] [rbraceC] s.dropLast.length
        s.dropLast [rbraceC] le_rfl hcross2]
    congr 1

/-- C10, counterexample: the bare test object parses to its structured
value, but the same object followed only by trailing prose parses to no
action — the text starts with a brace, so the brace-span slice is skipped
and `json.loads` fails on the trailing words. -/
theorem parser_trailing_prose_counterexample :
    parse_gemini_response j_bare = some j_value ∧
    parse_gemini_response j_trailing_prose = none ∧
    j_trailing_prose = j_bare ++ (" Thanks!").data :=
  ⟨rfl, rfl, rfl⟩

/-- C10, amended: for every object text that starts with a left brace and
ends with a right brace — backticks and `,\x7d` sequences inside included —
the ```json-fenced form parses to the same structured result as the bare
text; so does the form with brace-free prose around it, where the leading
prose need only contain one non-whitespace character and the trailing prose
may be empty, all-whitespace or absent; and so does the form with a
trailing comma inserted directly before the closing brace, for texts with
no `,\n\x7d` occurrence that do not already end in `,\x7d` (conditions no
serialized JSON object violates).  Every input whose normalized text fails
the loads stage yields no action, and never an exception, the parser being
a total function into an option. -/
theorem parser_wrapping_equiv :
    (∀ s : Str, s.head? = some lbraceC → s.getLast? = some rbraceC →
      parse_gemini_response (fence_pre ++ s ++ fence_post) =
        parse_gemini_response s) ∧
    (∀ s p1 p2 : Str, s.head? = some lbraceC → s.getLast? = some rbraceC →
      (∀ c ∈ p1, c ≠ lbraceC ∧ c ≠ rbraceC) →
      (∀ c ∈ p2, c ≠ lbraceC ∧ c ≠ rbraceC) →
      (∃ c ∈ p1, isPyWs c = false) →
      parse_gemini_response (p1 ++ s ++ p2) = parse_gemini_response s) ∧
    (∀ s : Str, s.head? = some lbraceC → s.getLast? = some rbraceC →
      occurs [',', '\n', rbraceC] s = false → s.dropLast.getLast? ≠ some ',' →
      parse_gemini_response (s.dropLast ++ [',', rbraceC]) =
        parse_gemini_response s) ∧
    (∀ t : Str, jsonLoads (gemini_text t) = none → parse_gemini_response t = none) := by
  refine ⟨?_, ?_, ?_, ?_⟩
  · intro s hhead hlast
    unfold parse_gemini_response
    rw [gemini_text_fenced_obj hhead hlast, gemini_text_obj hhead hlast]
  · intro s p1 p2 hhead hlast hp1 hp2 hp1w
    unfold parse_gemini_response
    rw [gemini_text_prose_obj hhead hlast hp1 hp2 hp1w, gemini_text_obj hhead hlast]
  · intro s hhead hlast hnl hend
    unfold parse_gemini_response
    have hs2 : 2 ≤ s.length := two_le_length_of_braces hhead hlast
    have hbne : s.dropLast ≠ [] := by
      intro hE
      have hL := congrArg List.length hE
      rw [List.length_dropLast] at hL
      simp at hL
      omega
    have hheadv : (s.dropLast ++ [',', rbraceC]).head? = some lbraceC := by
      rw [head?_append_left hbne, head?_dropLast_of_two hs2]
      exact hhead
    have hlastv : (s.dropLast ++ [',', rbraceC]).getLast? = some rbraceC := by
      rw [show s.dropLast ++ [',', rbraceC] = (s.dropLast ++ [',']) ++ [rbraceC] by
        simp, List.getLast?_concat]
    rw [gemini_text_obj hheadv hlastv, gemini_text_obj hhead hlast,
      normalize_trailing_eq hlast hnl hend]
  · intro t h
    unfold parse_gemini_response
    exact h

/-- C10, witness for the amended statement: the test object under concrete
fences, under whitespace-ended leading prose with no trailing prose at all,
and with a trailing comma; plus a concrete non-JSON input. -/
theorem parser_wrapping_equiv_witness :
    (j_bare.head? = some lbraceC) ∧ (j_bare.getLast? = some rbraceC) ∧
    parse_gemini_response (fence_pre ++ j_bare ++ fence_post) =
      parse_gemini_response j_bare ∧
    parse_gemini_response (("Note:\n").data ++ j_bare ++ ([] : Str)) =
      parse_gemini_response j_bare ∧
    parse_gemini_response (j_bare.dropLast ++ [',', rbraceC]) =
      parse_gemini_response j_bare ∧
    parse_gemini_response (("The call went fine.").data) = none := by
  refine ⟨by decide, by decide, ?_, ?_, ?_, ?_⟩
  · exact parser_wrapping_equiv.1 j_bare (by decide) (by decide)
  · exact parser_wrapping_equiv.2.1 j_bare (("Note:\n").data) [] (by decide)
      (by decide) (by decide) (by decide) (by decide)
  · exact parser_wrapping_equiv.2.2.1 j_bare (by decide) (by decide) (by decide)
      (by decide)
  · exact parser_wrapping_equiv.2.2.2 (("The call went fine.").data) (by rfl)

end LiveWire
